import Mathlib

/-!
# Praktika: the hosting-service facade of `src/main.go`

A shallow embedding of the methods of `gitHubService` that the specification
makes claims about, followed by the theorems that settle those claims.

Modelling conventions.

* A Go pointer received from the remote client is `Ptr α`: `none` is `nil`,
  `some ⟨addr, val⟩` is a non-nil pointer stored at address `addr` whose
  pointee is `val`.  Dereferencing `nil` is the run-time fault (`Outcome.fault`).
* A Go `error` is `Error := Option String`: `none` is `nil`, `some msg` an
  error value carrying the message `msg`.
* The third-party client (`github.Client`) is a record `Client` of response
  functions, one per client method the facade calls; the answer depends only
  on the request.  The `*Response` return value, the context and the option
  structs are dropped: the source discards or fixes them.
* Every facade method returns `Exec α`: the list of remote calls it issued,
  in order, and its outcome (a fault, or the returned values).
* A `float64` is `Float64`: a finite value (an exact rational), negative
  zero, an infinity or NaN; the operations round to nearest, ties to even, as
  the hardware does.
-/

namespace Praktika

/-! ## Go values -/

/-- A non-nil pointer: the address it holds and the value stored there. -/
structure Ref (α : Type) where
  addr : Nat
  val : α
  deriving DecidableEq, Repr

/-- A Go pointer: `none` is `nil`. -/
abbrev Ptr (α : Type) := Option (Ref α)

/-- A Go `error`: `none` is `nil`, `some msg` is an error with message `msg`. -/
abbrev Error := Option String

/-- A `time.Time` instant, as seconds since the epoch. -/
structure Time where
  unix : Int
  deriving DecidableEq, Repr

/-- Pointer comparison `p == q` of Go: two pointers are equal when both are
`nil` or both hold the same address; the pointees are not looked at. -/
def ptrEq {α : Type} : Ptr α → Ptr α → Bool
  | none, none => true
  | some a, some b => a.addr == b.addr
  | _, _ => false

/-! ## float64 arithmetic -/

/-- The integer nearest to `m`, the even one when `m` lies halfway between two. -/
def roundToEven (m : ℚ) : ℤ :=
  if m - ⌊m⌋ < 1 / 2 then ⌊m⌋
  else if 1 / 2 < m - ⌊m⌋ then ⌊m⌋ + 1
  else if ⌊m⌋ % 2 = 0 then ⌊m⌋ else ⌊m⌋ + 1

/-- The spacing of the float64 values around `x`: `2 ^ (e - 52)` for `x` in
the binade `[2 ^ e, 2 ^ (e + 1))`, and `2 ^ (-1074)` below the normal range. -/
def ulp (x : ℚ) : ℚ := (2 : ℚ) ^ (max (Int.log 2 |x|) (-1022) - 52)

/-- The multiple of the spacing nearest to `x`, ties to even. -/
def roundFinite (x : ℚ) : ℚ := (roundToEven (x / ulp x) : ℚ) * ulp x

/-- A `float64` value: a finite value other than negative zero, negative zero,
an infinity with its sign, or NaN. -/
inductive Float64 where
  | finite (q : ℚ)
  | negZero
  | inf (negative : Bool)
  | nan
  deriving DecidableEq, Repr

/-- The float64 nearest to the real number `x` (round to nearest, ties to
even): an infinity on overflow, a zero with the sign of `x` on underflow. -/
def Float64.round (x : ℚ) : Float64 :=
  if (2 : ℚ) ^ 1024 ≤ |roundFinite x| then Float64.inf (decide (x < 0))
  else if roundFinite x = 0 ∧ x < 0 then Float64.negZero
  else Float64.finite (roundFinite x)

/-- The sign bit. -/
def Float64.signBit : Float64 → Bool
  | Float64.finite q => decide (q < 0)
  | Float64.negZero => true
  | Float64.inf negative => negative
  | Float64.nan => false

/-- The zero of the given sign. -/
def Float64.zero (negative : Bool) : Float64 :=
  if negative then Float64.negZero else Float64.finite 0

/-- The finite value of a float64, and 0 for the other values. -/
def Float64.toRat : Float64 → ℚ
  | Float64.finite q => q
  | _ => 0

/-- The conversion `float64(n)` of an `int`. -/
def Float64.ofInt (n : Int) : Float64 := Float64.round (n : ℚ)

/-- The sum `x + y` of two float64 values. -/
def Float64.add : Float64 → Float64 → Float64
  | Float64.finite a, Float64.finite b =>
    if a + b = 0 then Float64.finite 0 else Float64.round (a + b)
  | Float64.finite a, Float64.negZero => Float64.finite a
  | Float64.negZero, Float64.finite b => Float64.finite b
  | Float64.negZero, Float64.negZero => Float64.negZero
  | Float64.nan, _ => Float64.nan
  | _, Float64.nan => Float64.nan
  | Float64.inf a, Float64.inf b => if a = b then Float64.inf a else Float64.nan
  | Float64.inf a, _ => Float64.inf a
  | _, Float64.inf b => Float64.inf b

/-- The quotient `x / y` of two float64 values. -/
def Float64.div : Float64 → Float64 → Float64
  | Float64.finite a, Float64.finite b =>
    if b = 0 then (if a = 0 then Float64.nan else Float64.inf (decide (a < 0)))
    else if a = 0 then Float64.zero (decide (b < 0))
    else Float64.round (a / b)
  | Float64.finite a, Float64.negZero =>
    if a = 0 then Float64.nan else Float64.inf (!decide (a < 0))
  | Float64.negZero, Float64.finite b =>
    if b = 0 then Float64.nan else Float64.zero (!decide (b < 0))
  | Float64.negZero, Float64.negZero => Float64.nan
  | Float64.nan, _ => Float64.nan
  | _, Float64.nan => Float64.nan
  | Float64.inf _, Float64.inf _ => Float64.nan
  | Float64.inf a, y => Float64.inf (xor a y.signBit)
  | x, Float64.inf b => Float64.zero (xor x.signBit b)

/-- The product `x * y` of two float64 values. -/
def Float64.mul : Float64 → Float64 → Float64
  | Float64.finite a, Float64.finite b =>
    if a * b = 0 then Float64.zero (xor (decide (a < 0)) (decide (b < 0)))
    else Float64.round (a * b)
  | Float64.finite a, Float64.negZero => Float64.zero (!decide (a < 0))
  | Float64.negZero, Float64.finite b => Float64.zero (!decide (b < 0))
  | Float64.negZero, Float64.negZero => Float64.finite 0
  | Float64.nan, _ => Float64.nan
  | _, Float64.nan => Float64.nan
  | Float64.inf a, Float64.inf b => Float64.inf (xor a b)
  | Float64.inf a, Float64.finite b =>
    if b = 0 then Float64.nan else Float64.inf (xor a (decide (b < 0)))
  | Float64.inf _, Float64.negZero => Float64.nan
  | Float64.finite a, Float64.inf b =>
    if a = 0 then Float64.nan else Float64.inf (xor (decide (a < 0)) b)
  | Float64.negZero, Float64.inf _ => Float64.nan

/-! ## Go maps -/

/-- A Go `map[string]int` on which two `range` loops run: its entries, with
distinct keys and values of the range of `int`, in the order in which the
second loop visits them, and the keys in the order in which the first loop
visits them.  Go picks the order of each loop afresh. -/
structure GoMap where
  entries : List (String × Int)
  nodup : (entries.map Prod.fst).Nodup
  inRange : ∀ e ∈ entries, -2 ^ 63 ≤ e.2 ∧ e.2 < 2 ^ 63
  firstVisit : List String
  firstVisit_perm : firstVisit.Perm (entries.map Prod.fst)

/-- The keys visited by the second `for k := range m`. -/
def GoMap.keys (m : GoMap) : List String := m.entries.map Prod.fst

/-- The index expression `m[k]`: the stored value, or the zero value. -/
def GoMap.get (m : GoMap) (k : String) : Int :=
  match m.entries.find? (fun e => e.1 == k) with
  | some e => e.2
  | none => 0

/-- The nil map. -/
def GoMap.empty : GoMap := ⟨[], List.nodup_nil, by simp, [], List.Perm.refl _⟩

/-! ## Data model of `main.go` (lines 13-75) -/

/-- `User` of `main.go`. -/
structure User where
  UserName : String
  FullName : String
  FollowersCount : Int
  FollowingCount : Int
  deriving DecidableEq, Repr

/-- An element of `Repository.programmingLanguage`. -/
structure ProgrammingLanguage where
  Name : String
  PercentOfUsage : Float64
  deriving DecidableEq, Repr

/-- `Repository` of `main.go`. -/
structure Repository where
  Name : String
  Description : String
  Link : String
  IsPrivate : Bool
  StarsCount : Int
  ForksCount : Int
  LastUpdatedTime : Time
  programmingLanguage : List ProgrammingLanguage
  deriving DecidableEq, Repr

/-- `Issue` of `main.go`. -/
structure Issue where
  Title : String
  IsClosed : Bool
  ResolvedPullRequestLink : String
  CreatedAt : Time
  UpdatedAt : Time
  deriving DecidableEq, Repr

/-! ## Remote response shapes (the fields of the client's types that `main.go` reads) -/

/-- `github.User`: the fields read by the facade. -/
structure GhUser where
  Login : Ptr String
  Name : Ptr String
  Followers : Ptr Int
  Following : Ptr Int
  deriving DecidableEq, Repr

/-- `github.Timestamp`: a struct wrapping a `time.Time`. -/
structure GhTimestamp where
  Time : Time
  deriving DecidableEq, Repr

/-- `github.Repository`: the fields read by the facade. -/
structure GhRepository where
  Name : Ptr String
  FullName : Ptr String
  Description : Ptr String
  HTMLURL : Ptr String
  Private : Ptr Bool
  StargazersCount : Ptr Int
  ForksCount : Ptr Int
  UpdatedAt : Ptr GhTimestamp
  deriving DecidableEq, Repr

/-- `github.PullRequestLinks`: the field read by the facade. -/
structure GhPullRequestLinks where
  URL : Ptr String
  deriving DecidableEq, Repr

/-- `github.Issue`: the fields read by the facade. -/
structure GhIssue where
  Title : Ptr String
  Locked : Ptr Bool
  PullRequestLinks : Ptr GhPullRequestLinks
  CreatedAt : Ptr Time
  UpdatedAt : Ptr Time
  Repository : Ptr GhRepository
  deriving DecidableEq, Repr

/-- `github.NewPullRequest`: the request payload of a pull-request creation
(title, head branch, base branch); the struct the request pointer points to. -/
structure NewPullRequest where
  Title : Ptr String
  Head : Ptr String
  Base : Ptr String
  deriving DecidableEq, Repr

/-! ## The remote client and the execution of a facade method -/

/-- A remote call issued through the client, with its arguments. -/
inductive Call where
  | UsersGet (user : String)
  | RepositoriesList (user : String)
  | RepositoriesListLanguages (owner repo : String)
  | RepositoriesGet (owner repo : String)
  | GitDeleteRef (owner repo ref : String)
  | PullRequestsCreate (owner repo : String) (pull : NewPullRequest)
  | IssuesList (all : Bool)
  | RepositoriesListCollaborators (owner repo : String)
  deriving DecidableEq, Repr

/-- The answers of the remote client, one function per client method. -/
structure Client where
  UsersGet : String → Ptr GhUser × Error
  RepositoriesList : String → List (Ptr GhRepository) × Error
  RepositoriesListLanguages : String → String → GoMap × Error
  RepositoriesGet : String → String → Ptr GhRepository × Error
  GitDeleteRef : String → String → String → Error
  PullRequestsCreate : String → String → NewPullRequest → Error
  IssuesList : Bool → List (Ptr GhIssue) × Error
  RepositoriesListCollaborators : String → String → List (Ptr GhUser) × Error

/-- How a method ends: with a run-time fault (nil dereference) or by returning. -/
inductive Outcome (α : Type) where
  | fault
  | ret (a : α)
  deriving DecidableEq, Repr

/-- An execution: the remote calls issued, in order, and the outcome. -/
structure Exec (α : Type) where
  calls : List Call
  out : Outcome α

/-- Returning a value issues no call. -/
def Exec.pure {α : Type} (a : α) : Exec α := ⟨[], Outcome.ret a⟩

/-- Sequencing: a fault stops the execution, keeping the calls made so far. -/
def Exec.bind {α β : Type} (x : Exec α) (f : α → Exec β) : Exec β :=
  match x.out with
  | Outcome.fault => ⟨x.calls, Outcome.fault⟩
  | Outcome.ret a => ⟨x.calls ++ (f a).calls, (f a).out⟩

instance : Monad Exec where
  pure := Exec.pure
  bind := Exec.bind

/-- The run-time fault. -/
def fault {α : Type} : Exec α := ⟨[], Outcome.fault⟩

/-- Issue the remote call `c` whose answer is `a`. -/
def remote {α : Type} (c : Call) (a : α) : Exec α := ⟨[c], Outcome.ret a⟩

/-- Dereference `*p` (also a field access through `p`): faults on `nil`. -/
def deref {α : Type} : Ptr α → Exec α
  | none => fault
  | some r => Exec.pure r.val

/-! ## The facade methods -/

/-- `gitHubService.GetUserInfo`, `main.go` lines 169-181. -/
def GetUserInfo (c : Client) (userName : String) : Exec (Option User × Error) := do
  let (user_tmp, err) ← remote (Call.UsersGet userName) (c.UsersGet userName)
  let u ← deref user_tmp
  if u.Login.isNone || u.Name.isNone || u.Followers.isNone || u.Following.isNone then
    return (none, some "error while parsing")
  let login ← deref u.Login
  let name ← deref u.Name
  let followers ← deref u.Followers
  let following ← deref u.Following
  let user : User := ⟨login, name, followers, following⟩
  return (some user, err)

/-- The summing loop over the language map, `main.go` lines 188-192 and
220-224: `sum := 0.0; for lang := range langs { sum += float64(langs[lang]) }`. -/
def sumLanguages (langs : GoMap) : Float64 :=
  langs.firstVisit.foldl (fun sum lang => Float64.add sum (Float64.ofInt (langs.get lang)))
    (Float64.finite 0)

/-- The appending loop over the language map, `main.go` lines 206-211 and
238-243: one entry per key, with `(float64(langs[lang]) / sum) * 100`. -/
def appendLanguages (langs : GoMap) (sum : Float64)
    (programmingLanguage : List ProgrammingLanguage) : List ProgrammingLanguage :=
  langs.keys.foldl
    (fun pl lang => pl ++ [ProgrammingLanguage.mk lang
      (Float64.mul (Float64.div (Float64.ofInt (langs.get lang)) sum) (Float64.finite 100))])
    programmingLanguage

/-- The struct literal `Repository{...}` of `main.go` lines 193-205 and 225-237:
every mapped field is read through the response pointer and dereferenced, in
the order written; `programmingLanguage` starts empty. -/
def mapRepository (item : Ptr GhRepository) : Exec Repository := do
  let name ← (do let r ← deref item; deref r.FullName)
  let description ← (do let r ← deref item; deref r.Description)
  let link ← (do let r ← deref item; deref r.HTMLURL)
  let isPrivate ← (do let r ← deref item; deref r.Private)
  let starsCount ← (do let r ← deref item; deref r.StargazersCount)
  let forksCount ← (do let r ← deref item; deref r.ForksCount)
  let updatedAt ← (do let r ← deref item; deref r.UpdatedAt)
  return ⟨name, description, link, isPrivate, starsCount, forksCount, updatedAt.Time, []⟩

/-- The body of the `for _, item := range tmp` loop of `GetUserRepositories`,
`main.go` lines 186-213, run over the remaining items with the slice
`repositories` built so far. -/
def GetUserRepositories.loop (c : Client) (userName : String) :
    List (Ptr GhRepository) → List Repository → Exec (List Repository)
  | [], repositories => pure repositories
  | item :: rest, repositories => do
    let itemName ← (do let r ← deref item; deref r.Name)
    let (langs, _) ← remote (Call.RepositoriesListLanguages userName itemName)
      (c.RepositoriesListLanguages userName itemName)
    let sum := sumLanguages langs
    let repo ← mapRepository item
    let repo : Repository :=
      ⟨repo.Name, repo.Description, repo.Link, repo.IsPrivate, repo.StarsCount, repo.ForksCount,
        repo.LastUpdatedTime, appendLanguages langs sum repo.programmingLanguage⟩
    GetUserRepositories.loop c userName rest (repositories ++ [repo])

/-- `gitHubService.GetUserRepositories`, `main.go` lines 183-215. -/
def GetUserRepositories (c : Client) (userName : String) : Exec (List Repository × Error) := do
  let (tmp, err) ← remote (Call.RepositoriesList userName) (c.RepositoriesList userName)
  let repositories ← GetUserRepositories.loop c userName tmp []
  return (repositories, err)

/-- `gitHubService.GetRepositoryByName`, `main.go` lines 217-245.  The method
returns `&repo`, which is never `nil`. -/
def GetRepositoryByName (c : Client) (userName repositoryName : String) :
    Exec (Option Repository × Error) := do
  let (repo_tmp, err) ← remote (Call.RepositoriesGet userName repositoryName)
    (c.RepositoriesGet userName repositoryName)
  let (langs, _) ← remote (Call.RepositoriesListLanguages userName repositoryName)
    (c.RepositoriesListLanguages userName repositoryName)
  let sum := sumLanguages langs
  let repo ← mapRepository repo_tmp
  let repo : Repository :=
    ⟨repo.Name, repo.Description, repo.Link, repo.IsPrivate, repo.StarsCount, repo.ForksCount,
      repo.LastUpdatedTime, appendLanguages langs sum repo.programmingLanguage⟩
  return (some repo, err)

/-- `gitHubService.DeleteBranch`, `main.go` lines 279-284. -/
def DeleteBranch (c : Client) (repoName branchName : String) : Exec Error := do
  let (user, _) ← remote (Call.UsersGet "") (c.UsersGet "")
  let owner ← (do let u ← deref user; pure u.Login)
  let ownerName ← deref owner
  let err ← remote (Call.GitDeleteRef ownerName repoName ("heads/" ++ branchName))
    (c.GitDeleteRef ownerName repoName ("heads/" ++ branchName))
  return err

/-- `gitHubService.CreatePullRequest`, `main.go` lines 310-316: the request is
sent to the repository `"test"` with the payload `&github.NewPullRequest{}`. -/
def CreatePullRequest (c : Client) (sourceBranch destBranch title : String) : Exec Error := do
  let _ := sourceBranch
  let _ := destBranch
  let _ := title
  let (user, _) ← remote (Call.UsersGet "") (c.UsersGet "")
  let owner ← (do let u ← deref user; pure u.Login)
  let ownerName ← deref owner
  let err ← remote (Call.PullRequestsCreate ownerName "test" ⟨none, none, none⟩)
    (c.PullRequestsCreate ownerName "test" ⟨none, none, none⟩)
  return err

/-- The body of the `for _, item := range tmp` loop of `GetIssues`, `main.go`
lines 333-337.  `paramAddr` is the address of the parameter variable
`repositoryName`, so that `&repositoryName` is `some ⟨paramAddr, repositoryName⟩`. -/
def GetIssues.loop (paramAddr : Nat) (repositoryName : String) :
    List (Ptr GhIssue) → List Issue → Exec (List Issue)
  | [], issues => pure issues
  | item :: rest, issues => do
    let itemRepositoryName ← (do let i ← deref item; let r ← deref i.Repository; pure r.Name)
    if ptrEq itemRepositoryName (some ⟨paramAddr, repositoryName⟩) then
      let title ← (do let i ← deref item; deref i.Title)
      let isClosed ← (do let i ← deref item; deref i.Locked)
      let link ← (do let i ← deref item; let l ← deref i.PullRequestLinks; deref l.URL)
      let createdAt ← (do let i ← deref item; deref i.CreatedAt)
      let updatedAt ← (do let i ← deref item; deref i.UpdatedAt)
      GetIssues.loop paramAddr repositoryName rest
        (issues ++ [Issue.mk title isClosed link createdAt updatedAt])
    else
      GetIssues.loop paramAddr repositoryName rest issues

/-- `gitHubService.GetIssues`, `main.go` lines 330-339.  `paramAddr` is the
address at which the run time stores the parameter `repositoryName`. -/
def GetIssues (c : Client) (paramAddr : Nat) (repositoryName : String) :
    Exec (List Issue × Error) := do
  let (tmp, err) ← remote (Call.IssuesList true) (c.IssuesList true)
  let issues ← GetIssues.loop paramAddr repositoryName tmp []
  return (issues, err)

/-- The body of the `for _, item := range cont` loop of
`GetRepositoryContributors`, `main.go` lines 346-349; the error of
`GetUserInfo` is discarded and its (possibly nil) user appended. -/
def GetRepositoryContributors.loop (c : Client) :
    List (Ptr GhUser) → List (Option User) → Exec (List (Option User))
  | [], user => pure user
  | item :: rest, user => do
    let login ← (do let i ← deref item; deref i.Login)
    let (tmp, _) ← GetUserInfo c login
    GetRepositoryContributors.loop c rest (user ++ [tmp])

/-- `gitHubService.GetRepositoryContributors`, `main.go` lines 341-351. -/
def GetRepositoryContributors (c : Client) (repositoryName : String) :
    Exec (List (Option User) × Error) := do
  let (_user, _) ← remote (Call.UsersGet "") (c.UsersGet "")
  let owner ← (do let u ← deref _user; pure u.Login)
  let ownerName ← deref owner
  let (cont, err) ← remote (Call.RepositoriesListCollaborators ownerName repositoryName)
    (c.RepositoriesListCollaborators ownerName repositoryName)
  let user ← GetRepositoryContributors.loop c cont []
  return (user, err)

/-- `gitHubService.CreateTag`, `main.go` lines 362-364. -/
def CreateTag (c : Client) (title : String) : Exec Error :=
  let _ := c
  let _ := title
  pure (some "implement me")

/-- `gitHubService.DeleteTag`, `main.go` lines 366-371. -/
def DeleteTag (c : Client) (repositoryName tagName : String) : Exec Error := do
  let (user, _) ← remote (Call.UsersGet "") (c.UsersGet "")
  let username ← (do let u ← deref user; pure u.Login)
  let usernameVal ← deref username
  let err ← remote (Call.GitDeleteRef usernameVal repositoryName ("tags/" ++ tagName))
    (c.GitDeleteRef usernameVal repositoryName ("tags/" ++ tagName))
  return err

/-- Whether a remote call is a ref deletion (`Git.DeleteRef`). -/
def Call.isGitDeleteRef : Call → Bool
  | Call.GitDeleteRef _ _ _ => true
  | _ => false

/-- Whether a remote call is a pull-request creation carrying, in its payload,
the head branch `head`, the base branch `base` and the title `title`. -/
def Call.createsPullRequest (head base title : String) : Call → Bool
  | Call.PullRequestsCreate _ _ pull =>
    (pull.Head.map Ref.val == some head) && (pull.Base.map Ref.val == some base) &&
      (pull.Title.map Ref.val == some title)
  | _ => false

/-! ## Predicates used to state the theorems, and fixtures -/

/-- A client that answers every request with nothing and no error. -/
def Client.silent : Client where
  UsersGet := fun _ => (none, none)
  RepositoriesList := fun _ => ([], none)
  RepositoriesListLanguages := fun _ _ => (GoMap.empty, none)
  RepositoriesGet := fun _ _ => (none, none)
  GitDeleteRef := fun _ _ _ => none
  PullRequestsCreate := fun _ _ _ => none
  IssuesList := fun _ => ([], none)
  RepositoriesListCollaborators := fun _ _ => ([], none)

/-- The profile of the test fixture of `main_test.go`: login "kill-your-soul",
name "kill_your_soul", 4 followers, 5 following. -/
def fixtureProfile : GhUser :=
  ⟨some ⟨1, "kill-your-soul"⟩, some ⟨2, "kill_your_soul"⟩, some ⟨3, 4⟩, some ⟨4, 5⟩⟩

/-- A client that answers every user lookup with the fixture profile. -/
def fixtureClient : Client :=
  { Client.silent with UsersGet := fun _ => (some ⟨10, fixtureProfile⟩, none) }

/-- A client whose user lookups answer a profile without a display name. -/
def namelessClient : Client :=
  { Client.silent with
    UsersGet := fun _ => (some ⟨10, ⟨some ⟨1, "kill-your-soul"⟩, none, some ⟨3, 4⟩, some ⟨4, 5⟩⟩⟩, none) }

/-- A client whose user lookups fail: no profile object and a transport error. -/
def failingClient : Client :=
  { Client.silent with UsersGet := fun _ => (none, some "404 Not Found") }

/-- An issue of the repository "XakepParser" with every field present; its
repository name is stored at address 21. -/
def fixtureIssue : GhIssue :=
  ⟨some ⟨31, "Parser crashes"⟩, some ⟨32, false⟩,
    some ⟨33, ⟨some ⟨34, "https://api.github.com/repos/kill-your-soul/XakepParser/pulls/1"⟩⟩⟩,
    some ⟨35, ⟨1650000000⟩⟩, some ⟨36, ⟨1650000500⟩⟩,
    some ⟨20, ⟨some ⟨21, "XakepParser"⟩, some ⟨22, "kill-your-soul/XakepParser"⟩,
      some ⟨23, "parser"⟩, some ⟨24, "https://github.com/kill-your-soul/XakepParser"⟩,
      some ⟨25, false⟩, some ⟨26, 0⟩, some ⟨27, 0⟩, some ⟨28, ⟨⟨1650000000⟩⟩⟩⟩⟩⟩

/-- A client whose issue listing holds the one fixture issue. -/
def issuesClient : Client :=
  { Client.silent with IssuesList := fun _ => ([some ⟨30, fixtureIssue⟩], none) }

/-- A client for which "kill-your-soul" is the identity and whose repository
"XakepParser" has the two collaborators "kill-your-soul" and "ghost", the
second of which has a profile without a display name. -/
def collaboratorsClient : Client :=
  { Client.silent with
    UsersGet := fun u =>
      if u = "ghost" then (some ⟨11, ⟨some ⟨5, "ghost"⟩, none, some ⟨6, 0⟩, some ⟨7, 0⟩⟩⟩, none)
      else (some ⟨10, fixtureProfile⟩, none)
    RepositoriesListCollaborators := fun _ _ =>
      ([some ⟨10, fixtureProfile⟩, some ⟨11, ⟨some ⟨5, "ghost"⟩, none, none, none⟩⟩], none) }

/-- The language listing of the fixture repository: 300 bytes of Go and 100
bytes of Python. -/
def fixtureLanguages : GoMap :=
  ⟨[("Go", 300), ("Python", 100)], by decide, by decide, ["Python", "Go"],
    List.Perm.swap "Go" "Python" []⟩

/-- A repository response with every field present. -/
def fixtureRepository : GhRepository :=
  ⟨some ⟨21, "XakepParser"⟩, some ⟨22, "kill-your-soul/XakepParser"⟩, some ⟨23, "parser"⟩,
    some ⟨24, "https://github.com/kill-your-soul/XakepParser"⟩, some ⟨25, false⟩,
    some ⟨26, 2⟩, some ⟨27, 1⟩, some ⟨28, ⟨⟨1650000000⟩⟩⟩⟩

/-- A client that answers the fixture repository, alone in the listing, with
the fixture language listing. -/
def repositoryClient : Client :=
  { Client.silent with
    RepositoriesGet := fun _ _ => (some ⟨20, fixtureRepository⟩, none)
    RepositoriesList := fun _ => ([some ⟨20, fixtureRepository⟩], none)
    RepositoriesListLanguages := fun _ _ => (fixtureLanguages, none) }

/-- The fixture repository without a description (the remote sends `null`). -/
def undescribedRepository : GhRepository :=
  ⟨some ⟨21, "XakepParser"⟩, some ⟨22, "kill-your-soul/XakepParser"⟩, none,
    some ⟨24, "https://github.com/kill-your-soul/XakepParser"⟩, some ⟨25, false⟩,
    some ⟨26, 2⟩, some ⟨27, 1⟩, some ⟨28, ⟨⟨1650000000⟩⟩⟩⟩

/-- A client that answers the repository without a description, alone in the
listing, with the fixture language listing. -/
def undescribedClient : Client :=
  { Client.silent with
    RepositoriesGet := fun _ _ => (some ⟨20, undescribedRepository⟩, none)
    RepositoriesList := fun _ => ([some ⟨20, undescribedRepository⟩], none)
    RepositoriesListLanguages := fun _ _ => (fixtureLanguages, none) }

/-- An item of the issue listing whose repository-name pointer is not the
address `paramAddr`: the item and its repository are non-nil, and the name is
nil or stored elsewhere. -/
def GhIssue.nameElsewhere (paramAddr : Nat) (item : Ptr GhIssue) : Prop :=
  ∃ i r, item = some i ∧ i.val.Repository = some r ∧
    ∀ n, r.val.Name = some n → n.addr ≠ paramAddr

/-- The i-th user of the result is what `GetUserInfo` returns for the login of
the i-th collaborator. -/
def isUserInfoOf (c : Client) (item : Ptr GhUser) (u : Option User) : Prop :=
  ∃ i l e, item = some i ∧ i.val.Login = some l ∧
    (GetUserInfo c l.val).out = Outcome.ret (u, e)

/-- A repository response in which one of the seven mapped fields is nil. -/
def GhRepository.lacksMappedField (r : GhRepository) : Prop :=
  r.FullName = none ∨ r.Description = none ∨ r.HTMLURL = none ∨ r.Private = none ∨
    r.StargazersCount = none ∨ r.ForksCount = none ∨ r.UpdatedAt = none

/-- The unit roundoff of float64: half the spacing relative to the magnitude. -/
def unitRoundoff : ℚ := 1 / 2 ^ 53

/-- The value `a` approximates the exact value `x` after `j` roundings. -/
def approx (j : ℕ) (a x : ℚ) : Prop :=
  (1 - unitRoundoff) ^ j * x ≤ a ∧ (1 - unitRoundoff) ^ j * a ≤ x

/-- The sum `S` of the byte counts of a language listing. -/
def GoMap.total (m : GoMap) : Int := (m.entries.map Prod.snd).sum

/-- A language listing of byte counts: no count is negative, the counts sum to
`S > 0`, and there are at most `2 ^ 48` languages. -/
def GoMap.isByteCount (m : GoMap) : Prop :=
  (∀ e ∈ m.entries, 0 ≤ e.2) ∧ 0 < m.total ∧ m.entries.length ≤ 2 ^ 48

/-- The relative tolerance for a listing of `n` languages: `(2 n + 3) / 2 ^ 52`. -/
def tolerance (n : ℕ) : ℚ := (2 * (n : ℚ) + 3) / 2 ^ 52

/-- The language entries `pl` of a repository whose language listing is `langs`
are one per language, in the order of the listing, each with a finite
percentage within the tolerance of `100 * bytes[lang] / S`, and the percentages
sum to 100 within the tolerance. -/
def hasPercentOfUsage (langs : GoMap) (pl : List ProgrammingLanguage) : Prop :=
  List.Forall₂
      (fun e l => l.Name = e.1 ∧ ∃ p, l.PercentOfUsage = Float64.finite p ∧
        |p - 100 * (e.2 : ℚ) / (langs.total : ℚ)| ≤
          tolerance langs.entries.length * (100 * (e.2 : ℚ) / (langs.total : ℚ)))
      langs.entries pl ∧
    |(pl.map (fun l => l.PercentOfUsage.toRat)).sum - 100| ≤
      tolerance langs.entries.length * 100

/-- A repository of the result that belongs to the listed repository `item`:
when the language listing the client answers for the name of `item` is a
listing of byte counts, the language entries of the repository are as
`hasPercentOfUsage` says. -/
def listedWithPercentOfUsage (c : Client) (userName : String) (item : Ptr GhRepository)
    (repo : Repository) : Prop :=
  ∃ r n, item = some r ∧ r.val.Name = some n ∧
    ((c.RepositoriesListLanguages userName n.val).1.isByteCount →
      hasPercentOfUsage (c.RepositoriesListLanguages userName n.val).1 repo.programmingLanguage)

/-- The language listing with 1 byte of A and 2 bytes of B. -/
def thirdsLanguages : GoMap :=
  ⟨[("A", 1), ("B", 2)], by decide, by decide, ["A", "B"], List.Perm.refl _⟩

/-- A client that answers the fixture repository with the listing of thirds. -/
def thirdsClient : Client :=
  { Client.silent with
    RepositoriesGet := fun _ _ => (some ⟨20, fixtureRepository⟩, none)
    RepositoriesListLanguages := fun _ _ => (thirdsLanguages, none) }

/-- The language listing with `2 ^ 54 + 1` bytes of A and `-2 ^ 54` bytes of B,
whose counts sum to 1. -/
def cancellingLanguages : GoMap :=
  ⟨[("A", 18014398509481985), ("B", -18014398509481984)], by decide, by decide, ["A", "B"],
    List.Perm.refl _⟩

/-- A client that answers the fixture repository with the cancelling listing. -/
def cancellingClient : Client :=
  { Client.silent with
    RepositoriesGet := fun _ _ => (some ⟨20, fixtureRepository⟩, none)
    RepositoriesListLanguages := fun _ _ => (cancellingLanguages, none) }

/-- A client for which "kill-your-soul" is the identity and whose repository
"XakepParser" has the two collaborators "kill-your-soul" and "ghost", the
lookup of the second of which fails with a transport error. -/
def lostCollaboratorClient : Client :=
  { Client.silent with
    UsersGet := fun u =>
      if u = "ghost" then (none, some "404 Not Found") else (some ⟨10, fixtureProfile⟩, none)
    RepositoriesListCollaborators := fun _ _ =>
      ([some ⟨10, fixtureProfile⟩, some ⟨11, ⟨some ⟨5, "ghost"⟩, none, none, none⟩⟩], none) }

/-! ## Execution lemmas -/

@[simp] theorem bind_eq {α β : Type} (x : Exec α) (f : α → Exec β) :
    (x >>= f) = Exec.bind x f := rfl

@[simp] theorem pure_eq {α : Type} (a : α) : (pure a : Exec α) = Exec.pure a := rfl

theorem Exec.pure_bind {α β : Type} (a : α) (f : α → Exec β) :
    Exec.bind (Exec.pure a) f = f a := by
  simp [Exec.bind, Exec.pure]

theorem Exec.fault_bind {α β : Type} (f : α → Exec β) :
    Exec.bind (⟨[], Outcome.fault⟩ : Exec α) f = ⟨[], Outcome.fault⟩ := rfl

theorem deref_some {α : Type} (r : Ref α) : deref (some r) = Exec.pure r.val := rfl

theorem deref_none {α : Type} : deref (none : Ptr α) = ⟨[], Outcome.fault⟩ := rfl

/-! ## GetUserInfo -/

/-- With a profile object in hand, `GetUserInfo` issues the one lookup and then
either reports the shape error or returns the four fields. -/
theorem GetUserInfo_of_profile (c : Client) (userName : String) (p : Ref GhUser) (err : Error)
    (hget : c.UsersGet userName = (some p, err)) :
    GetUserInfo c userName =
      ⟨[Call.UsersGet userName],
        match p.val.Login, p.val.Name, p.val.Followers, p.val.Following with
        | some l, some n, some f, some g => Outcome.ret (some ⟨l.val, n.val, f.val, g.val⟩, err)
        | _, _, _, _ => Outcome.ret (none, some "error while parsing")⟩ := by
  obtain ⟨a, ⟨l, n, f, g⟩⟩ := p
  cases l <;> cases n <;> cases f <;> cases g <;>
    simp [GetUserInfo, hget, remote, deref, fault, Exec.bind, Exec.pure]

/-- Without a profile object, `GetUserInfo` faults right after the lookup. -/
theorem GetUserInfo_of_nil (c : Client) (userName : String) (err : Error)
    (hget : c.UsersGet userName = (none, err)) :
    GetUserInfo c userName = ⟨[Call.UsersGet userName], Outcome.fault⟩ := by
  simp [GetUserInfo, hget, remote, deref, fault, Exec.bind]

/-- C1: for every remote profile object in which login, name, followers or
following is nil, `GetUserInfo` returns the nil user with the non-nil error
"error while parsing", and does not fault, whatever the other fields are. -/
theorem GetUserInfo_shape_error (c : Client) (userName : String) (p : Ref GhUser) (err : Error)
    (hget : c.UsersGet userName = (some p, err))
    (habsent : p.val.Login = none ∨ p.val.Name = none ∨ p.val.Followers = none ∨
      p.val.Following = none) :
    GetUserInfo c userName =
      ⟨[Call.UsersGet userName], Outcome.ret (none, some "error while parsing")⟩ := by
  rw [GetUserInfo_of_profile c userName p err hget]
  obtain ⟨a, ⟨l, n, f, g⟩⟩ := p
  cases l <;> cases n <;> cases f <;> cases g <;> simp_all

/-- C1 at a profile that lacks the display name. -/
theorem GetUserInfo_shape_error_witness :
    GetUserInfo namelessClient "kill-your-soul" =
      ⟨[Call.UsersGet "kill-your-soul"], Outcome.ret (none, some "error while parsing")⟩ :=
  GetUserInfo_shape_error namelessClient "kill-your-soul"
    ⟨10, ⟨some ⟨1, "kill-your-soul"⟩, none, some ⟨3, 4⟩, some ⟨4, 5⟩⟩⟩ none rfl (Or.inr (Or.inl rfl))

/-- C2: for every remote profile in which login, name, followers and following
are all present, `GetUserInfo` returns the user made of exactly those four
values, together with the error of the remote call. -/
theorem GetUserInfo_maps_fields (c : Client) (userName : String) (p : Ref GhUser) (err : Error)
    (l n : Ref String) (f g : Ref Int)
    (hget : c.UsersGet userName = (some p, err))
    (hl : p.val.Login = some l) (hn : p.val.Name = some n)
    (hf : p.val.Followers = some f) (hg : p.val.Following = some g) :
    GetUserInfo c userName =
      ⟨[Call.UsersGet userName], Outcome.ret (some ⟨l.val, n.val, f.val, g.val⟩, err)⟩ := by
  rw [GetUserInfo_of_profile c userName p err hget, hl, hn, hf, hg]

/-- C2 at the fixture of `main_test.go`: the profile ("kill-your-soul",
"kill_your_soul", 4, 5) yields the user with these four values and a nil error. -/
theorem GetUserInfo_maps_fields_witness :
    GetUserInfo fixtureClient "kill-your-soul" =
      ⟨[Call.UsersGet "kill-your-soul"],
        Outcome.ret (some ⟨"kill-your-soul", "kill_your_soul", 4, 5⟩, none)⟩ :=
  GetUserInfo_maps_fields fixtureClient "kill-your-soul" ⟨10, fixtureProfile⟩ none
    ⟨1, "kill-your-soul"⟩ ⟨2, "kill_your_soul"⟩ ⟨3, 4⟩ ⟨4, 5⟩ rfl rfl rfl rfl rfl

/-- C9: when the user lookup fails with the error "404 Not Found" and no
profile object, `GetUserInfo` issues the lookup and then faults on the nil
profile; it does not return the error. -/
theorem GetUserInfo_lookup_failure_faults :
    GetUserInfo failingClient "ghost" = ⟨[Call.UsersGet "ghost"], Outcome.fault⟩ ∧
    (∀ r : Option User × Error, (GetUserInfo failingClient "ghost").out ≠ Outcome.ret r) := by
  have h := GetUserInfo_of_nil failingClient "ghost" (some "404 Not Found") rfl
  refine ⟨h, ?_⟩
  intro r
  rw [h]
  simp

/-! ## DeleteBranch, DeleteTag, CreateTag, CreatePullRequest -/

/-- C6: when the lookup of the authenticated identity answers a profile whose
login is `o`, `DeleteBranch` issues exactly one ref-deletion call, with the
arguments `(o, repo, "heads/" ++ n)`, and `DeleteTag` exactly one, with
`(o, repo, "tags/" ++ n)`; each returns the error of that deletion call. -/
theorem delete_ref_once (c : Client) (repo n : String) (me : Ref GhUser) (o : Ref String)
    (e0 : Error) (hme : c.UsersGet "" = (some me, e0)) (ho : me.val.Login = some o) :
    DeleteBranch c repo n =
        ⟨[Call.UsersGet "", Call.GitDeleteRef o.val repo ("heads/" ++ n)],
          Outcome.ret (c.GitDeleteRef o.val repo ("heads/" ++ n))⟩ ∧
      (DeleteBranch c repo n).calls.filter Call.isGitDeleteRef =
        [Call.GitDeleteRef o.val repo ("heads/" ++ n)] ∧
      DeleteTag c repo n =
        ⟨[Call.UsersGet "", Call.GitDeleteRef o.val repo ("tags/" ++ n)],
          Outcome.ret (c.GitDeleteRef o.val repo ("tags/" ++ n))⟩ ∧
      (DeleteTag c repo n).calls.filter Call.isGitDeleteRef =
        [Call.GitDeleteRef o.val repo ("tags/" ++ n)] := by
  have hb : DeleteBranch c repo n =
      ⟨[Call.UsersGet "", Call.GitDeleteRef o.val repo ("heads/" ++ n)],
        Outcome.ret (c.GitDeleteRef o.val repo ("heads/" ++ n))⟩ := by
    simp [DeleteBranch, hme, ho, remote, deref, Exec.bind, Exec.pure]
  have ht : DeleteTag c repo n =
      ⟨[Call.UsersGet "", Call.GitDeleteRef o.val repo ("tags/" ++ n)],
        Outcome.ret (c.GitDeleteRef o.val repo ("tags/" ++ n))⟩ := by
    simp [DeleteTag, hme, ho, remote, deref, Exec.bind, Exec.pure]
  refine ⟨hb, ?_, ht, ?_⟩
  · rw [hb]; simp [Call.isGitDeleteRef]
  · rw [ht]; simp [Call.isGitDeleteRef]

/-- C6 at the calls of `main`: deleting the branch "test" of "XakepParser" and
the tag "testing_new_features" of "test" as "kill-your-soul". -/
theorem delete_ref_once_witness :
    DeleteBranch fixtureClient "XakepParser" "test" =
        ⟨[Call.UsersGet "", Call.GitDeleteRef "kill-your-soul" "XakepParser" "heads/test"],
          Outcome.ret none⟩ ∧
      DeleteTag fixtureClient "XakepParser" "test" =
        ⟨[Call.UsersGet "", Call.GitDeleteRef "kill-your-soul" "XakepParser" "tags/test"],
          Outcome.ret none⟩ :=
  have h := delete_ref_once fixtureClient "XakepParser" "test" ⟨10, fixtureProfile⟩
    ⟨1, "kill-your-soul"⟩ none rfl rfl
  ⟨h.1, h.2.2.1⟩

/-- C7: for every client and every title, `CreateTag` issues no remote call
and returns the non-nil error "implement me". -/
theorem CreateTag_not_implemented (c : Client) (title : String) :
    CreateTag c title = ⟨[], Outcome.ret (some "implement me")⟩ ∧
      (CreateTag c title).calls = [] ∧
      (∃ e : Error, (CreateTag c title).out = Outcome.ret e ∧ e ≠ none) := by
  refine ⟨rfl, rfl, some "implement me", rfl, ?_⟩
  simp

/-- The execution of `CreatePullRequest` does not depend on its three
parameters. -/
theorem CreatePullRequest_ignores_parameters (c : Client) (s d t s2 d2 t2 : String) :
    CreatePullRequest c s d t = CreatePullRequest c s2 d2 t2 := rfl

/-- C10: with the identity "kill-your-soul", `CreatePullRequest "feature" "main"
"Add parser"` sends the creation request to the repository "test" with an empty
payload (no head, no base, no title); no call it issues carries the three
values, and the call with the title "Fix typo" sends the same payload. -/
theorem CreatePullRequest_drops_parameters :
    CreatePullRequest fixtureClient "feature" "main" "Add parser" =
        ⟨[Call.UsersGet "", Call.PullRequestsCreate "kill-your-soul" "test" ⟨none, none, none⟩],
          Outcome.ret none⟩ ∧
      (CreatePullRequest fixtureClient "feature" "main" "Add parser").calls.any
          (Call.createsPullRequest "feature" "main" "Add parser") = false ∧
      (CreatePullRequest fixtureClient "feature" "main" "Fix typo").calls =
        (CreatePullRequest fixtureClient "feature" "main" "Add parser").calls := by
  have h : CreatePullRequest fixtureClient "feature" "main" "Add parser" =
      ⟨[Call.UsersGet "", Call.PullRequestsCreate "kill-your-soul" "test" ⟨none, none, none⟩],
        Outcome.ret none⟩ := by
    simp [CreatePullRequest, fixtureClient, fixtureProfile, Client.silent, remote, deref,
      Exec.bind, Exec.pure]
  refine ⟨h, ?_, rfl⟩
  rw [h]
  simp [Call.createsPullRequest]

/-! ## GetIssues -/

/-- The loop of `GetIssues` appends nothing for items whose repository name is
not stored at the address of the parameter. -/
theorem GetIssues_loop_skips (paramAddr : Nat) (repositoryName : String)
    (tmp : List (Ptr GhIssue)) (issues : List Issue)
    (h : ∀ item ∈ tmp, GhIssue.nameElsewhere paramAddr item) :
    GetIssues.loop paramAddr repositoryName tmp issues = ⟨[], Outcome.ret issues⟩ := by
  induction tmp generalizing issues with
  | nil => rfl
  | cons item rest ih =>
    obtain ⟨i, r, hi, hr, hn⟩ := h item (List.mem_cons_self _ _)
    have hrest := ih issues (fun x hx => h x (List.mem_cons_of_mem _ hx))
    have hne : ptrEq r.val.Name (some ⟨paramAddr, repositoryName⟩) = false := by
      cases hname : r.val.Name with
      | none => rfl
      | some n => simpa [ptrEq] using hn n hname
    simp [GetIssues.loop, hi, hr, hne, hrest, deref, Exec.bind, Exec.pure]

/-- Whatever the requested name, `GetIssues` returns no issue when no
repository-name pointer of the listing is the address of its own parameter. -/
theorem GetIssues_empty (c : Client) (paramAddr : Nat) (repositoryName : String)
    (tmp : List (Ptr GhIssue)) (err : Error) (hlist : c.IssuesList true = (tmp, err))
    (h : ∀ item ∈ tmp, GhIssue.nameElsewhere paramAddr item) :
    GetIssues c paramAddr repositoryName = ⟨[Call.IssuesList true], Outcome.ret ([], err)⟩ := by
  simp [GetIssues, hlist, GetIssues_loop_skips paramAddr repositoryName tmp [] h, remote,
    Exec.bind, Exec.pure]

/-- C4: for the listing that holds one issue of the repository "XakepParser"
(its name stored at address 21) and the request for "XakepParser" (the
parameter stored at address 0), `GetIssues` returns the empty list: the
comparison is between addresses, not names. -/
theorem GetIssues_drops_matching_issue :
    GetIssues issuesClient 0 "XakepParser" = ⟨[Call.IssuesList true], Outcome.ret ([], none)⟩ := by
  apply GetIssues_empty issuesClient 0 "XakepParser" [some ⟨30, fixtureIssue⟩] none rfl
  intro item hitem
  rw [List.mem_singleton] at hitem
  subst hitem
  refine ⟨⟨30, fixtureIssue⟩, _, rfl, rfl, ?_⟩
  intro n hn
  simp at hn
  subst hn
  decide

/-! ## GetRepositoryContributors -/

/-- With a profile object in hand, `GetUserInfo` returns. -/
theorem GetUserInfo_returns (c : Client) (userName : String)
    (hget : (c.UsersGet userName).1 ≠ none) :
    ∃ u e, GetUserInfo c userName = ⟨[Call.UsersGet userName], Outcome.ret (u, e)⟩ := by
  cases hc : c.UsersGet userName with
  | mk p err =>
    cases p with
    | none => simp [hc] at hget
    | some p =>
      rw [GetUserInfo_of_profile c userName p err hc]
      obtain ⟨a, ⟨l, n, f, g⟩⟩ := p
      cases l <;> cases n <;> cases f <;> cases g <;> simp

/-- The loop of `GetRepositoryContributors` appends, in order, one result of
`GetUserInfo` per collaborator. -/
theorem GetRepositoryContributors_loop_spec (c : Client) (cont : List (Ptr GhUser))
    (user : List (Option User))
    (h : ∀ item ∈ cont, ∃ i l, item = some i ∧ i.val.Login = some l ∧
      (c.UsersGet l.val).1 ≠ none) :
    ∃ users, (GetRepositoryContributors.loop c cont user).out = Outcome.ret (user ++ users) ∧
      List.Forall₂ (isUserInfoOf c) cont users := by
  induction cont generalizing user with
  | nil => exact ⟨[], by simp [GetRepositoryContributors.loop, Exec.pure], List.Forall₂.nil⟩
  | cons item rest ih =>
    obtain ⟨i, l, hi, hl, hp⟩ := h item (List.mem_cons_self _ _)
    obtain ⟨u, e, hu⟩ := GetUserInfo_returns c l.val hp
    obtain ⟨users, hout, hall⟩ := ih (user ++ [u]) (fun x hx => h x (List.mem_cons_of_mem _ hx))
    refine ⟨u :: users, ?_, List.Forall₂.cons ⟨i, l, e, hi, hl, by rw [hu]⟩ hall⟩
    simp only [List.append_assoc, List.singleton_append] at hout
    simp [GetRepositoryContributors.loop, hi, hl, hu, hout, deref, Exec.bind, Exec.pure]

/-- On the path without fault (the identity resolves to an owner, every
collaborator of the listing carries a login and every lookup of such a login
answers a profile object), `GetRepositoryContributors` returns the error of
the collaborator listing and a list as long as the listing whose i-th element
is the user that `GetUserInfo` returns for the login of the i-th collaborator. -/
theorem GetRepositoryContributors_of_profiles (c : Client) (repositoryName : String)
    (me : Ref GhUser) (o : Ref String) (e0 err : Error) (cont : List (Ptr GhUser))
    (hme : c.UsersGet "" = (some me, e0)) (ho : me.val.Login = some o)
    (hlist : c.RepositoriesListCollaborators o.val repositoryName = (cont, err))
    (hcont : ∀ item ∈ cont, ∃ i l, item = some i ∧ i.val.Login = some l ∧
      (c.UsersGet l.val).1 ≠ none) :
    ∃ users, (GetRepositoryContributors c repositoryName).out = Outcome.ret (users, err) ∧
      users.length = cont.length ∧ List.Forall₂ (isUserInfoOf c) cont users := by
  obtain ⟨users, hout, hall⟩ := GetRepositoryContributors_loop_spec c cont [] hcont
  refine ⟨users, ?_, hall.length_eq.symm, hall⟩
  simp only [List.nil_append] at hout
  simp [GetRepositoryContributors, hme, ho, hlist, hout, remote, deref, Exec.bind, Exec.pure]

/-- At a listing of two collaborators whose lookups both answer a profile
object, the second without a display name, the result has two elements: the
fixture user and nil, with the error of the listing. -/
theorem GetRepositoryContributors_of_profiles_fixture :
    (GetRepositoryContributors collaboratorsClient "XakepParser").out =
      Outcome.ret ([some ⟨"kill-your-soul", "kill_your_soul", 4, 5⟩, none], none) :=
  rfl

/-- The loop of `GetRepositoryContributors` faults at a collaborator whose
lookup answers no profile object, after that lookup. -/
theorem GetRepositoryContributors_loop_faults (c : Client) (i : Ref GhUser) (l : Ref String)
    (err : Error) (rest : List (Ptr GhUser)) (user : List (Option User))
    (hl : i.val.Login = some l) (hget : c.UsersGet l.val = (none, err)) :
    GetRepositoryContributors.loop c (some i :: rest) user =
      ⟨[Call.UsersGet l.val], Outcome.fault⟩ := by
  simp only [GetRepositoryContributors.loop, bind_eq, pure_eq, deref_some, Exec.pure_bind, hl,
    GetUserInfo_of_nil c l.val err hget]
  rfl

/-- C5: for the listing of the two collaborators "kill-your-soul" and "ghost",
the lookup of the second of which fails with "404 Not Found",
`GetRepositoryContributors` issues the identity lookup, the collaborator
listing and the two lookups, and then faults inside `GetUserInfo`; it returns
no list and no error. -/
theorem GetRepositoryContributors_faults_on_failed_lookup :
    GetRepositoryContributors lostCollaboratorClient "XakepParser" =
        ⟨[Call.UsersGet "", Call.RepositoriesListCollaborators "kill-your-soul" "XakepParser",
          Call.UsersGet "kill-your-soul", Call.UsersGet "ghost"], Outcome.fault⟩ ∧
      (∀ r : List (Option User) × Error,
        (GetRepositoryContributors lostCollaboratorClient "XakepParser").out ≠ Outcome.ret r) := by
  have h : GetRepositoryContributors lostCollaboratorClient "XakepParser" =
      ⟨[Call.UsersGet "", Call.RepositoriesListCollaborators "kill-your-soul" "XakepParser",
        Call.UsersGet "kill-your-soul", Call.UsersGet "ghost"], Outcome.fault⟩ := rfl
  refine ⟨h, ?_⟩
  intro r
  rw [h]
  simp

/-! ## GetRepositoryByName and GetUserRepositories: the field mapping -/

/-- The struct literal faults when a mapped field is nil. -/
theorem mapRepository_faults (r : Ref GhRepository) (h : r.val.lacksMappedField) :
    mapRepository (some r) = ⟨[], Outcome.fault⟩ := by
  obtain ⟨a, ⟨nm, fn, d, u, p, st, fk, up⟩⟩ := r
  rcases fn with _ | fn
  · simp [mapRepository, deref_some, deref_none, Exec.pure_bind, Exec.fault_bind]
  rcases d with _ | d
  · simp [mapRepository, deref_some, deref_none, Exec.pure_bind, Exec.fault_bind]
  rcases u with _ | u
  · simp [mapRepository, deref_some, deref_none, Exec.pure_bind, Exec.fault_bind]
  rcases p with _ | p
  · simp [mapRepository, deref_some, deref_none, Exec.pure_bind, Exec.fault_bind]
  rcases st with _ | st
  · simp [mapRepository, deref_some, deref_none, Exec.pure_bind, Exec.fault_bind]
  rcases fk with _ | fk
  · simp [mapRepository, deref_some, deref_none, Exec.pure_bind, Exec.fault_bind]
  rcases up with _ | up
  · simp [mapRepository, deref_some, deref_none, Exec.pure_bind, Exec.fault_bind]
  simp [GhRepository.lacksMappedField] at h

/-- The struct literal copies the seven mapped fields when all are present. -/
theorem mapRepository_maps (r : Ref GhRepository) (nm : Ptr String)
    (fullName description url : Ref String) (isPrivate : Ref Bool) (stars forks : Ref Int)
    (updatedAt : Ref GhTimestamp)
    (hr : r.val = ⟨nm, some fullName, some description, some url, some isPrivate, some stars,
      some forks, some updatedAt⟩) :
    mapRepository (some r) =
      ⟨[], Outcome.ret ⟨fullName.val, description.val, url.val, isPrivate.val, stars.val,
        forks.val, updatedAt.val.Time, []⟩⟩ := by
  simp [mapRepository, hr, deref_some, Exec.pure_bind]
  rfl

/-- For every repository response with a mapped field nil, `GetRepositoryByName`
faults after its two remote calls. -/
theorem GetRepositoryByName_faults (c : Client) (userName repositoryName : String)
    (r : Ref GhRepository) (err : Error)
    (hget : c.RepositoriesGet userName repositoryName = (some r, err))
    (h : r.val.lacksMappedField) :
    GetRepositoryByName c userName repositoryName =
      ⟨[Call.RepositoriesGet userName repositoryName,
        Call.RepositoriesListLanguages userName repositoryName], Outcome.fault⟩ := by
  simp [GetRepositoryByName, hget, mapRepository_faults r h, remote, Exec.bind]

/-- The loop of `GetUserRepositories` faults at an item with a mapped field
nil, after asking for the languages of that item. -/
theorem GetUserRepositories_loop_faults (c : Client) (userName : String) (r : Ref GhRepository)
    (n : Ref String) (rest : List (Ptr GhRepository)) (repositories : List Repository)
    (hn : r.val.Name = some n) (h : r.val.lacksMappedField) :
    GetUserRepositories.loop c userName (some r :: rest) repositories =
      ⟨[Call.RepositoriesListLanguages userName n.val], Outcome.fault⟩ := by
  simp only [GetUserRepositories.loop, bind_eq, pure_eq, deref_some, Exec.pure_bind, hn,
    mapRepository_faults r h]
  simp [remote, Exec.bind]

/-- For every listing whose first repository has a mapped field nil,
`GetUserRepositories` faults. -/
theorem GetUserRepositories_faults (c : Client) (userName : String) (r : Ref GhRepository)
    (n : Ref String) (rest : List (Ptr GhRepository)) (err : Error)
    (hlist : c.RepositoriesList userName = (some r :: rest, err))
    (hn : r.val.Name = some n) (h : r.val.lacksMappedField) :
    GetUserRepositories c userName =
      ⟨[Call.RepositoriesList userName, Call.RepositoriesListLanguages userName n.val],
        Outcome.fault⟩ := by
  simp [GetUserRepositories, hlist, GetUserRepositories_loop_faults c userName r n rest [] hn h,
    remote, Exec.bind]

/-- C8: for the repository response without a description (every other field
present), `GetRepositoryByName` faults after its two remote calls, and
`GetUserRepositories` faults on the listing that holds this repository; neither
returns an error. -/
theorem repository_mapping_faults_on_nil_description :
    GetRepositoryByName undescribedClient "kill-your-soul" "XakepParser" =
        ⟨[Call.RepositoriesGet "kill-your-soul" "XakepParser",
          Call.RepositoriesListLanguages "kill-your-soul" "XakepParser"], Outcome.fault⟩ ∧
      GetUserRepositories undescribedClient "kill-your-soul" =
        ⟨[Call.RepositoriesList "kill-your-soul",
          Call.RepositoriesListLanguages "kill-your-soul" "XakepParser"], Outcome.fault⟩ :=
  ⟨GetRepositoryByName_faults undescribedClient "kill-your-soul" "XakepParser"
      ⟨20, undescribedRepository⟩ none rfl (Or.inr (Or.inl rfl)),
    GetUserRepositories_faults undescribedClient "kill-your-soul" ⟨20, undescribedRepository⟩
      ⟨21, "XakepParser"⟩ [] none rfl rfl (Or.inr (Or.inl rfl))⟩

/-! ## float64: rounding errors -/

/-- Rounding to an integer moves by at most one half. -/
theorem roundToEven_sub_le (m : ℚ) : |(roundToEven m : ℚ) - m| ≤ 1 / 2 := by
  have h0 := Int.floor_le m
  have h1 := Int.lt_floor_add_one m
  unfold roundToEven
  split_ifs with c1 c2 c3
  · rw [abs_le]; constructor <;> linarith
  · push_cast; rw [abs_le]; constructor <;> linarith
  · rw [abs_le]; constructor <;> linarith
  · push_cast; rw [abs_le]; constructor <;> linarith

/-- The spacing is positive. -/
theorem ulp_pos (x : ℚ) : 0 < ulp x := by
  unfold ulp
  positivity

/-- Rounding to a multiple of the spacing moves by at most half the spacing. -/
theorem roundFinite_sub_le (x : ℚ) : |roundFinite x - x| ≤ ulp x / 2 := by
  have hq := ulp_pos x
  have h := roundToEven_sub_le (x / ulp x)
  have e : roundFinite x - x = ((roundToEven (x / ulp x) : ℚ) - x / ulp x) * ulp x := by
    unfold roundFinite
    field_simp
  rw [e, abs_mul, abs_of_pos hq]
  calc |(roundToEven (x / ulp x) : ℚ) - x / ulp x| * ulp x ≤ 1 / 2 * ulp x :=
        mul_le_mul_of_nonneg_right h hq.le
    _ = ulp x / 2 := by ring

/-- In the normal range the spacing is at most `2 ^ (-52)` times the magnitude. -/
theorem ulp_le_of_normal (x : ℚ) (hx : (2 : ℚ) ^ (-1022 : ℤ) ≤ |x|) :
    ulp x ≤ |x| / 2 ^ 52 := by
  have hpos : 0 < |x| := lt_of_lt_of_le (by positivity) hx
  have hlog : -1022 ≤ Int.log 2 |x| := by
    have h := Int.log_mono_right (b := 2) (by positivity) hx
    rwa [show ((2 : ℚ) ^ (-1022 : ℤ)) = ((2 : ℕ) : ℚ) ^ (-1022 : ℤ) by norm_num,
      Int.log_zpow (by norm_num)] at h
  have hle : ((2 : ℕ) : ℚ) ^ Int.log 2 |x| ≤ |x| := Int.zpow_log_le_self (by norm_num) hpos
  unfold ulp
  rw [max_eq_left hlog, zpow_sub₀ (by norm_num)]
  have h52 : ((2 : ℚ) ^ (52 : ℤ)) = 2 ^ 52 := by norm_num
  rw [h52]
  apply div_le_div_of_nonneg_right _ (by positivity)
  simpa using hle

/-- Rounding a positive number of the normal range: a finite value within one
unit roundoff, relatively. -/
theorem Float64.round_of_normal (x : ℚ) (hlo : (2 : ℚ) ^ (-1022 : ℤ) ≤ x)
    (hhi : x ≤ 2 ^ 1023) :
    ∃ r, Float64.round x = Float64.finite r ∧ (1 - unitRoundoff) * x ≤ r ∧
      r ≤ (1 + unitRoundoff) * x := by
  have hpos : 0 < x := lt_of_lt_of_le (by positivity) hlo
  have habs : |x| = x := abs_of_pos hpos
  have hu := ulp_le_of_normal x (by rw [habs]; exact hlo)
  rw [habs] at hu
  have hr := roundFinite_sub_le x
  rw [abs_le] at hr
  have h1 : (1 - unitRoundoff) * x ≤ roundFinite x := by
    unfold unitRoundoff; linarith
  have h2 : roundFinite x ≤ (1 + unitRoundoff) * x := by
    unfold unitRoundoff; linarith
  have hrpos : 0 < roundFinite x := by
    have : 0 < (1 - unitRoundoff) * x := mul_pos (by unfold unitRoundoff; norm_num) hpos
    linarith
  refine ⟨roundFinite x, ?_, h1, h2⟩
  unfold Float64.round
  have hlt : ¬ ((2 : ℚ) ^ 1024 ≤ |roundFinite x|) := by
    rw [abs_of_pos hrpos, not_le]
    have : (1 + unitRoundoff) * x ≤ (1 + unitRoundoff) * 2 ^ 1023 :=
      mul_le_mul_of_nonneg_left hhi (by unfold unitRoundoff; norm_num)
    have h3 : (1 + unitRoundoff) * 2 ^ 1023 < (2 : ℚ) ^ 1024 := by
      unfold unitRoundoff; norm_num
    linarith
  rw [if_neg hlt, if_neg (fun h => absurd h.1 hrpos.ne')]

/-- One minus the unit roundoff is positive. -/
theorem w_pos : 0 < 1 - unitRoundoff := by unfold unitRoundoff; norm_num

/-- One minus the unit roundoff is at most one. -/
theorem w_le_one : 1 - unitRoundoff ≤ 1 := by unfold unitRoundoff; norm_num

/-- The powers of one minus the unit roundoff are positive. -/
theorem pow_w_pos (j : ℕ) : 0 < (1 - unitRoundoff) ^ j := pow_pos w_pos j

/-- The powers of one minus the unit roundoff are at most one. -/
theorem pow_w_le_one (j : ℕ) : (1 - unitRoundoff) ^ j ≤ 1 := pow_le_one₀ w_pos.le w_le_one

/-- Bernoulli: `k` roundings lose at most `k` unit roundoffs. -/
theorem pow_w_ge (k : ℕ) : 1 - k * unitRoundoff ≤ (1 - unitRoundoff) ^ k := by
  have h := one_add_mul_le_pow (a := -unitRoundoff) (by unfold unitRoundoff; norm_num) k
  have e1 : (1 : ℚ) + (k : ℚ) * -unitRoundoff = 1 - k * unitRoundoff := by ring
  have e2 : (1 : ℚ) + -unitRoundoff = 1 - unitRoundoff := by ring
  rwa [e1, e2] at h

/-- Up to `2 ^ 52` roundings lose at most one half. -/
theorem pow_w_ge_half (k : ℕ) (hk : k ≤ 2 ^ 52) : 1 / 2 ≤ (1 - unitRoundoff) ^ k := by
  have h := pow_w_ge k
  have hk' : (k : ℚ) ≤ 2 ^ 52 := by exact_mod_cast hk
  have : (k : ℚ) * unitRoundoff ≤ 1 / 2 := by
    unfold unitRoundoff
    calc (k : ℚ) * (1 / 2 ^ 53) ≤ 2 ^ 52 * (1 / 2 ^ 53) :=
          mul_le_mul_of_nonneg_right hk' (by positivity)
      _ = 1 / 2 := by norm_num
  linarith

/-- Zero approximates zero. -/
theorem approx_zero (j : ℕ) : approx j 0 0 := by simp [approx]

/-- An approximation of a non-negative value is non-negative. -/
theorem approx_nonneg {j : ℕ} {a x : ℚ} (h : approx j a x) (hx : 0 ≤ x) : 0 ≤ a :=
  le_trans (mul_nonneg (pow_w_pos j).le hx) h.1

/-- Approximations add. -/
theorem approx_add {j : ℕ} {a x b y : ℚ} (h1 : approx j a x) (h2 : approx j b y) :
    approx j (a + b) (x + y) := by
  constructor
  · rw [mul_add]; exact add_le_add h1.1 h2.1
  · rw [mul_add]; exact add_le_add h1.2 h2.2

/-- An approximation after `j` roundings is one after `j + 1`. -/
theorem approx_succ {j : ℕ} {a x : ℚ} (h : approx j a x) (hx : 0 ≤ x) : approx (j + 1) a x := by
  have ha := approx_nonneg h hx
  have hw := pow_w_pos j
  constructor
  · rw [pow_succ, mul_assoc]
    have : (1 - unitRoundoff) * x ≤ x := by nlinarith [w_le_one]
    exact le_trans (mul_le_mul_of_nonneg_left this hw.le) h.1
  · rw [pow_succ, mul_assoc]
    have : (1 - unitRoundoff) * a ≤ a := by nlinarith [w_le_one]
    exact le_trans (mul_le_mul_of_nonneg_left this hw.le) h.2

/-- An approximation after `j` roundings is one after any larger number. -/
theorem approx_mono {j k : ℕ} {a x : ℚ} (h : approx j a x) (hx : 0 ≤ x) (hjk : j ≤ k) :
    approx k a x := by
  induction k, hjk using Nat.le_induction with
  | base => exact h
  | succ n _ ih => exact approx_succ ih hx

/-- Rounding an approximation costs one rounding. -/
theorem approx_round {j : ℕ} {a x r : ℚ} (h : approx j a x) (hx : 0 ≤ x)
    (h1 : (1 - unitRoundoff) * a ≤ r) (h2 : r ≤ (1 + unitRoundoff) * a) :
    approx (j + 1) r x := by
  have ha := approx_nonneg h hx
  have hw := pow_w_pos j
  constructor
  · rw [pow_succ, mul_comm _ (1 - unitRoundoff), mul_assoc]
    exact le_trans (mul_le_mul_of_nonneg_left h.1 w_pos.le) h1
  · rw [pow_succ, mul_assoc]
    have h3 : (1 - unitRoundoff) * r ≤ a := by
      have : (1 - unitRoundoff) * r ≤ (1 - unitRoundoff) * ((1 + unitRoundoff) * a) :=
        mul_le_mul_of_nonneg_left h2 w_pos.le
      have e : (1 - unitRoundoff) * ((1 + unitRoundoff) * a) = a - unitRoundoff ^ 2 * a := by ring
      have : 0 ≤ unitRoundoff ^ 2 * a := mul_nonneg (sq_nonneg _) ha
      linarith
    exact le_trans (mul_le_mul_of_nonneg_left h3 hw.le) h.2

/-- Approximations divide, the numbers of roundings adding up. -/
theorem approx_div {i j : ℕ} {a x b y : ℚ} (h1 : approx i a x) (h2 : approx j b y)
    (hx : 0 ≤ x) (hb : 0 < b) (hy : 0 < y) : approx (i + j) (a / b) (x / y) := by
  have ha := approx_nonneg h1 hx
  have hi := pow_w_pos i
  have hj := pow_w_pos j
  constructor
  · rw [pow_add, ← mul_div_assoc, div_le_div_iff₀ hy hb]
    calc (1 - unitRoundoff) ^ i * (1 - unitRoundoff) ^ j * x * b
        = ((1 - unitRoundoff) ^ i * x) * ((1 - unitRoundoff) ^ j * b) := by ring
      _ ≤ a * y := mul_le_mul h1.1 h2.2 (mul_nonneg hj.le hb.le) ha
  · rw [pow_add, ← mul_div_assoc, div_le_div_iff₀ hb hy]
    calc (1 - unitRoundoff) ^ i * (1 - unitRoundoff) ^ j * a * y
        = ((1 - unitRoundoff) ^ i * a) * ((1 - unitRoundoff) ^ j * y) := by ring
      _ ≤ x * b := mul_le_mul h1.2 h2.1 (mul_nonneg hj.le hy.le) hx

/-- Approximations scale by an exact non-negative factor. -/
theorem approx_mul_right {j : ℕ} {a x : ℚ} (h : approx j a x) (c : ℚ) (hc : 0 ≤ c) :
    approx j (a * c) (x * c) := by
  constructor
  · rw [← mul_assoc]; exact mul_le_mul_of_nonneg_right h.1 hc
  · rw [← mul_assoc]; exact mul_le_mul_of_nonneg_right h.2 hc

/-- An approximation after `k` roundings is within `2 * k` unit roundoffs, relatively. -/
theorem approx_abs {k : ℕ} {a x : ℚ} (h : approx k a x) (hx : 0 ≤ x) (hk : k ≤ 2 ^ 51) :
    |a - x| ≤ 2 * k * unitRoundoff * x := by
  have ha := approx_nonneg h hx
  have hw := pow_w_ge k
  have hk' : (k : ℚ) ≤ 2 ^ 51 := by exact_mod_cast hk
  have hku : (k : ℚ) * unitRoundoff ≤ 1 / 4 := by
    unfold unitRoundoff
    calc (k : ℚ) * (1 / 2 ^ 53) ≤ 2 ^ 51 * (1 / 2 ^ 53) :=
          mul_le_mul_of_nonneg_right hk' (by positivity)
      _ = 1 / 4 := by norm_num
  have hku0 : 0 ≤ (k : ℚ) * unitRoundoff := by unfold unitRoundoff; positivity
  have h1 : (1 - k * unitRoundoff) * x ≤ a :=
    le_trans (mul_le_mul_of_nonneg_right hw hx) h.1
  have h2 : (1 - k * unitRoundoff) * a ≤ x :=
    le_trans (mul_le_mul_of_nonneg_right hw ha) h.2
  rw [abs_le]
  constructor
  · nlinarith
  · have h3 : a ≤ 2 * x := by nlinarith
    nlinarith

/-- Zero rounds to zero. -/
theorem Float64.round_zero : Float64.round 0 = Float64.finite 0 := by
  simp [Float64.round, roundFinite, roundToEven]

/-- Converting a non-negative `int` gives a finite value within one rounding. -/
theorem Float64.ofInt_approx (b : ℤ) (h0 : 0 ≤ b) (h1 : b < 2 ^ 63) :
    ∃ r, Float64.ofInt b = Float64.finite r ∧ approx 1 r b := by
  rcases h0.eq_or_lt with h | h
  · subst h
    exact ⟨0, by simp [Float64.ofInt, Float64.round_zero], by simpa using approx_zero 1⟩
  · have hb1 : (1 : ℚ) ≤ b := by exact_mod_cast h
    have hb2 : (b : ℚ) ≤ 2 ^ 63 := by exact_mod_cast h1.le
    obtain ⟨r, hr, hlo, hhi⟩ := Float64.round_of_normal (b : ℚ)
      (le_trans (by norm_num) hb1) (le_trans hb2 (by norm_num))
    refine ⟨r, hr, ?_⟩
    have h00 : approx 0 (b : ℚ) b := by simp [approx]
    exact approx_round h00 (by linarith) hlo hhi

/-- The summing loop over non-negative counts: a finite value within two
roundings per count of the exact sum. -/
theorem foldAdd_approx (vals : List ℤ) (hv : ∀ b ∈ vals, 0 ≤ b ∧ b < 2 ^ 63) (s : ℚ) (X : ℤ)
    (j : ℕ) (hX : 0 ≤ X) (hs : approx j s X) (hj : j + 2 * vals.length ≤ 2 ^ 52)
    (hB : X + vals.sum ≤ 2 ^ 200) :
    ∃ s', vals.foldl (fun acc b => Float64.add acc (Float64.ofInt b)) (Float64.finite s) =
        Float64.finite s' ∧
      approx (j + 2 * vals.length) s' ((X + vals.sum : ℤ) : ℚ) := by
  induction vals generalizing s X j with
  | nil => exact ⟨s, rfl, by simpa using hs⟩
  | cons b rest ih =>
    have hb := hv b (List.mem_cons_self _ _)
    have hrest : ∀ x ∈ rest, 0 ≤ x ∧ x < 2 ^ 63 := fun x hx => hv x (List.mem_cons_of_mem _ hx)
    have hrest0 : 0 ≤ rest.sum := List.sum_nonneg (fun x hx => (hrest x hx).1)
    simp only [List.length_cons, List.sum_cons] at hj hB
    obtain ⟨r, hr, hrb⟩ := Float64.ofInt_approx b hb.1 hb.2
    have hXq : (0 : ℚ) ≤ X := by exact_mod_cast hX
    have hbq : (0 : ℚ) ≤ b := by exact_mod_cast hb.1
    have hs0 := approx_nonneg hs hXq
    have hr0 := approx_nonneg hrb hbq
    have hsum : approx (j + 1) (s + r) ((X : ℚ) + b) :=
      approx_add (approx_succ hs hXq) (approx_mono hrb hbq (by omega))
    have hw := pow_w_pos (j + 1)
    have hhalf := pow_w_ge_half (j + 1) (by omega)
    have hXb : (0 : ℤ) ≤ X + b := by omega
    have key : ∃ t, Float64.add (Float64.finite s) (Float64.ofInt b) = Float64.finite t ∧
        approx (j + 2) t ((X + b : ℤ) : ℚ) := by
      rw [hr]
      by_cases hz : s + r = 0
      · have hXb0 : (X : ℚ) + b ≤ 0 := by
          have := hsum.1
          rw [hz] at this
          by_contra hc
          push_neg at hc
          have := mul_pos hw hc
          linarith
        have : ((X + b : ℤ) : ℚ) = 0 := by push_cast; linarith
        refine ⟨0, by simp [Float64.add, hz], ?_⟩
        rw [this]
        exact approx_zero _
      · have hpos : 0 < s + r := lt_of_le_of_ne (by linarith) (Ne.symm hz)
        have hXb1 : (1 : ℤ) ≤ X + b := by
          by_contra hc
          have h0 : X + b = 0 := by omega
          have h0q : (X : ℚ) + b = 0 := by exact_mod_cast h0
          have := hsum.2
          rw [h0q] at this
          have := mul_pos hw hpos
          linarith
        have hXb1q : (1 : ℚ) ≤ (X : ℚ) + b := by exact_mod_cast hXb1
        have hXbB : (X : ℚ) + b ≤ 2 ^ 200 := by
          have : X + b ≤ 2 ^ 200 := by omega
          exact_mod_cast this
        have hlo : (2 : ℚ) ^ (-1022 : ℤ) ≤ s + r := by
          have h1 : (1 : ℚ) / 2 ≤ s + r := by
            have := hsum.1
            nlinarith
          exact le_trans (by norm_num) h1
        have hhi : s + r ≤ 2 ^ 1023 := by
          have := hsum.2
          have h2 : s + r ≤ 2 * ((X : ℚ) + b) := by nlinarith
          have h3 : 2 * ((X : ℚ) + b) ≤ 2 ^ 1023 := by
            calc 2 * ((X : ℚ) + b) ≤ 2 * 2 ^ 200 := by linarith
              _ ≤ 2 ^ 1023 := by norm_num
          linarith
        obtain ⟨t, ht, ht1, ht2⟩ := Float64.round_of_normal (s + r) hlo hhi
        refine ⟨t, by simp [Float64.add, hz, ht], ?_⟩
        have := approx_round hsum (by linarith) ht1 ht2
        push_cast
        exact this
    obtain ⟨t, ht, hta⟩ := key
    obtain ⟨s', hs', hsa⟩ := ih hrest t (X + b) (j + 2) hXb hta (by omega) (by omega)
    refine ⟨s', ?_, ?_⟩
    · rw [List.foldl_cons, ht, hs']
    · have e1 : j + 2 + 2 * rest.length = j + 2 * (rest.length + 1) := by ring
      have e2 : X + b + rest.sum = X + (b + rest.sum) := by ring
      rw [List.length_cons, List.sum_cons, ← e1, ← e2]
      exact hsa

/-- One percentage: a finite value within `k + 3` roundings of `100 * b / S`
when the float sum is within `k` roundings of `S`. -/
theorem percent_approx (b S : ℤ) (s : ℚ) (k : ℕ) (hb0 : 0 ≤ b) (hb1 : b < 2 ^ 63)
    (hbS : b ≤ S) (hS : 1 ≤ S) (hSB : S ≤ 2 ^ 200) (hs : approx k s S) (hk : k + 3 ≤ 2 ^ 52) :
    ∃ p, Float64.mul (Float64.div (Float64.ofInt b) (Float64.finite s)) (Float64.finite 100) =
        Float64.finite p ∧
      approx (k + 3) p (100 * (b : ℚ) / S) := by
  obtain ⟨r, hr, hrb⟩ := Float64.ofInt_approx b hb0 hb1
  have hSq : (1 : ℚ) ≤ S := by exact_mod_cast hS
  have hSpos : (0 : ℚ) < S := by linarith
  have hbq : (0 : ℚ) ≤ b := by exact_mod_cast hb0
  have hr0 := approx_nonneg hrb hbq
  have hhalfk := pow_w_ge_half k (by omega)
  have hspos : 0 < s := by
    have := hs.1
    nlinarith
  rw [hr]
  by_cases hz : r = 0
  · have hb : b = 0 := by
      have := hrb.1
      rw [hz] at this
      have hw := pow_w_pos 1
      have : (b : ℚ) ≤ 0 := by
        by_contra hc
        push_neg at hc
        have := mul_pos hw hc
        linarith
      have : (b : ℚ) = 0 := le_antisymm this hbq
      exact_mod_cast this
    refine ⟨0, ?_, ?_⟩
    · simp [Float64.div, Float64.mul, Float64.zero, hz, hspos.ne', not_lt.mpr hspos.le]
    · rw [hb]
      simpa using approx_zero (k + 3)
  · have hrpos : 0 < r := lt_of_le_of_ne hr0 (Ne.symm hz)
    have hb1' : (1 : ℤ) ≤ b := by
      by_contra hc
      have h0 : b = 0 := by omega
      have := hrb.2
      rw [h0] at this
      have := mul_pos (pow_w_pos 1) hrpos
      simp at *
      linarith
    have hb1q : (1 : ℚ) ≤ b := by exact_mod_cast hb1'
    have hbSq : (b : ℚ) ≤ S := by exact_mod_cast hbS
    have hSBq : (S : ℚ) ≤ 2 ^ 200 := by exact_mod_cast hSB
    have hq : approx (1 + k) (r / s) ((b : ℚ) / S) := approx_div hrb hs hbq hspos hSpos
    have hxlo : (1 : ℚ) / 2 ^ 200 ≤ (b : ℚ) / S := by
      rw [div_le_div_iff₀ (by positivity) hSpos]
      nlinarith
    have hxhi : (b : ℚ) / S ≤ 1 := by
      rw [div_le_one hSpos]; exact hbSq
    have hx0 : (0 : ℚ) ≤ (b : ℚ) / S := le_trans (by positivity) hxlo
    have hhalf1 := pow_w_ge_half (1 + k) (by omega)
    have hw1 := pow_w_pos (1 + k)
    have hqlo : (2 : ℚ) ^ (-1022 : ℤ) ≤ r / s := by
      have h1 : (1 : ℚ) / 2 * (1 / 2 ^ 200) ≤ r / s := by
        have := hq.1
        have h2 : (1 : ℚ) / 2 * (1 / 2 ^ 200) ≤ (1 - unitRoundoff) ^ (1 + k) * ((b : ℚ) / S) :=
          mul_le_mul hhalf1 hxlo (by positivity) hw1.le
        linarith
      exact le_trans (by norm_num) h1
    have hq0 : 0 ≤ r / s := le_trans (by positivity) hqlo
    have hqhi' : r / s ≤ 2 := by
      have := hq.2
      nlinarith
    obtain ⟨q, hqr, hq1, hq2⟩ := Float64.round_of_normal (r / s) hqlo
      (le_trans hqhi' (by norm_num))
    have hqa : approx (1 + k + 1) q ((b : ℚ) / S) := approx_round hq hx0 hq1 hq2
    have hqpos : 0 < q := by
      have : 0 < (1 - unitRoundoff) * (r / s) := mul_pos w_pos (div_pos hrpos hspos)
      linarith
    have hm : approx (1 + k + 1) (q * 100) ((b : ℚ) / S * 100) :=
      approx_mul_right hqa 100 (by norm_num)
    have hhalf2 := pow_w_ge_half (1 + k + 1) (by omega)
    have hw2 := pow_w_pos (1 + k + 1)
    have hmlo : (2 : ℚ) ^ (-1022 : ℤ) ≤ q * 100 := by
      have h1 : (1 : ℚ) / 2 * (1 / 2 ^ 200 * 100) ≤ q * 100 := by
        have := hm.1
        have h2 : (1 : ℚ) / 2 * (1 / 2 ^ 200 * 100) ≤
            (1 - unitRoundoff) ^ (1 + k + 1) * ((b : ℚ) / S * 100) :=
          mul_le_mul hhalf2 (by linarith) (by positivity) hw2.le
        linarith
      exact le_trans (by norm_num) h1
    have hmhi : q * 100 ≤ 2 ^ 1023 := by
      have := hm.2
      have h1 : q * 100 ≤ 200 := by nlinarith
      exact le_trans h1 (by norm_num)
    obtain ⟨p, hp, hp1, hp2⟩ := Float64.round_of_normal (q * 100) hmlo hmhi
    have hpa := approx_round hm (mul_nonneg hx0 (by norm_num)) hp1 hp2
    refine ⟨p, ?_, ?_⟩
    · have hq100 : q * 100 ≠ 0 := (mul_pos hqpos (by norm_num)).ne'
      simp [Float64.div, Float64.mul, hz, hspos.ne', hqr, hq100, hp]
    · have e1 : 1 + k + 1 + 1 = k + 3 := by ring
      have e2 : (b : ℚ) / S * 100 = 100 * (b : ℚ) / S := by ring
      rw [e1, e2] at hpa
      exact hpa

/-- A number less than one half away from an integer rounds to it. -/
theorem roundToEven_eq (m : ℚ) (n : ℤ) (h : |m - n| < 1 / 2) : roundToEven m = n := by
  rw [abs_lt] at h
  unfold roundToEven
  by_cases hmn : (n : ℚ) ≤ m
  · have hf : ⌊m⌋ = n := by
      rw [Int.floor_eq_iff]
      constructor <;> linarith
    rw [hf, if_pos (by linarith)]
  · push_neg at hmn
    have hf : ⌊m⌋ = n - 1 := by
      rw [Int.floor_eq_iff]
      push_cast
      constructor <;> linarith
    rw [hf, if_neg (by push_cast; linarith), if_pos (by push_cast; linarith)]
    ring

/-- Rounding a number whose binade is known and which is not a tie. -/
theorem Float64.round_eq (x : ℚ) (e n : ℤ) (he : -1022 ≤ e) (h1 : (2 : ℚ) ^ e ≤ |x|)
    (h2 : |x| < (2 : ℚ) ^ (e + 1)) (hn : |x / (2 : ℚ) ^ (e - 52) - n| < 1 / 2) (hn0 : n ≠ 0)
    (hov : |(n : ℚ) * (2 : ℚ) ^ (e - 52)| < 2 ^ 1024) :
    Float64.round x = Float64.finite ((n : ℚ) * (2 : ℚ) ^ (e - 52)) := by
  have hpos : 0 < |x| := lt_of_lt_of_le (by positivity) h1
  have hlog : Int.log 2 |x| = e := by
    have a1 := (Int.zpow_le_iff_le_log (b := 2) (by norm_num) hpos).mp (by simpa using h1)
    have a2 := (Int.lt_zpow_iff_log_lt (b := 2) (by norm_num) hpos).mp (by simpa using h2)
    omega
  have hulp : ulp x = (2 : ℚ) ^ (e - 52) := by
    unfold ulp
    rw [hlog, max_eq_left he]
  have hrf : roundFinite x = (n : ℚ) * (2 : ℚ) ^ (e - 52) := by
    unfold roundFinite
    rw [hulp, roundToEven_eq _ n hn]
  unfold Float64.round
  rw [hrf, if_neg (not_le.mpr hov), if_neg]
  intro h
  have hz : (2 : ℚ) ^ (e - 52) ≠ 0 := by positivity
  rcases mul_eq_zero.mp h.1 with h0 | h0
  · exact hn0 (by exact_mod_cast h0)
  · exact hz h0

/-! ## GetRepositoryByName and GetUserRepositories: the language percentages -/

/-- In a list of entries with distinct keys, the first entry found under the
key of a member is that member. -/
theorem find_entry_of_mem (l : List (String × Int)) (e : String × Int)
    (hnd : (l.map Prod.fst).Nodup) (he : e ∈ l) :
    l.find? (fun x => x.1 == e.1) = some e := by
  induction l with
  | nil => simp at he
  | cons x xs ih =>
    rw [List.map_cons, List.nodup_cons] at hnd
    by_cases hx : x.1 = e.1
    · have hxe : x = e := by
        rcases List.mem_cons.mp he with h | h
        · exact h.symm
        · exact absurd (List.mem_map_of_mem Prod.fst h) (hx ▸ hnd.1)
      simp [List.find?, hxe]
    · have hmem : e ∈ xs := by
        rcases List.mem_cons.mp he with h | h
        · exact absurd (congrArg Prod.fst h).symm hx
        · exact h
      have hb : (x.1 == e.1) = false := by simpa using hx
      rw [List.find?_cons, hb]
      exact ih hnd.2 hmem

/-- Indexing a map at the key of one of its entries gives the value of that entry. -/
theorem GoMap.get_of_mem (m : GoMap) (e : String × Int) (he : e ∈ m.entries) :
    m.get e.1 = e.2 := by
  simp [GoMap.get, find_entry_of_mem m.entries e m.nodup he]

/-- The appending loop, run over the keys of some entries of the map. -/
theorem append_loop_eq (m : GoMap) (sum : Float64) (es : List (String × Int))
    (hes : ∀ e ∈ es, e ∈ m.entries) (pl : List ProgrammingLanguage) :
    (es.map Prod.fst).foldl
        (fun pl lang => pl ++ [ProgrammingLanguage.mk lang
          (Float64.mul (Float64.div (Float64.ofInt (m.get lang)) sum) (Float64.finite 100))]) pl =
      pl ++ es.map (fun e => ProgrammingLanguage.mk e.1
        (Float64.mul (Float64.div (Float64.ofInt e.2) sum) (Float64.finite 100))) := by
  induction es generalizing pl with
  | nil => simp
  | cons e es ih =>
    have hget := m.get_of_mem e (hes e (List.mem_cons_self _ _))
    simp only [List.map_cons, List.foldl_cons, hget]
    rw [ih (fun x hx => hes x (List.mem_cons_of_mem _ hx))]
    simp

/-- The appending loop adds one entry per entry of the map, in order. -/
theorem appendLanguages_eq (m : GoMap) (sum : Float64) (pl : List ProgrammingLanguage) :
    appendLanguages m sum pl =
      pl ++ m.entries.map (fun e => ProgrammingLanguage.mk e.1
        (Float64.mul (Float64.div (Float64.ofInt e.2) sum) (Float64.finite 100))) := by
  simpa [appendLanguages, GoMap.keys] using append_loop_eq m sum m.entries (fun _ he => he) pl

/-- The values the summing loop reads are values of entries of the map. -/
theorem firstVisit_values (m : GoMap) (b : Int) (hb : b ∈ m.firstVisit.map m.get) :
    ∃ e ∈ m.entries, b = e.2 := by
  obtain ⟨k, hk, rfl⟩ := List.mem_map.mp hb
  have hk2 : k ∈ m.entries.map Prod.fst := m.firstVisit_perm.subset hk
  obtain ⟨e, he, rfl⟩ := List.mem_map.mp hk2
  exact ⟨e, he, m.get_of_mem e he⟩

/-- The values the summing loop reads sum to `S`, whatever the order. -/
theorem firstVisit_sum (m : GoMap) : (m.firstVisit.map m.get).sum = m.total := by
  have h1 : (m.firstVisit.map m.get).sum = ((m.entries.map Prod.fst).map m.get).sum :=
    (m.firstVisit_perm.map m.get).sum_eq
  have h2 : (m.entries.map Prod.fst).map m.get = m.entries.map Prod.snd := by
    rw [List.map_map]
    exact List.map_congr_left (fun e he => m.get_of_mem e he)
  rw [h1, h2, GoMap.total]

/-- The summing loop reads as many values as the map has entries. -/
theorem firstVisit_length (m : GoMap) : (m.firstVisit.map m.get).length = m.entries.length := by
  rw [List.length_map, m.firstVisit_perm.length_eq, List.length_map]

/-- A sum of `int` values is at most their number times `2 ^ 63`. -/
theorem sum_le_length_mul (l : List Int) (h : ∀ b ∈ l, b < 2 ^ 63) :
    l.sum ≤ (l.length : Int) * 2 ^ 63 := by
  induction l with
  | nil => simp
  | cons b rest ih =>
    have hb := h b (List.mem_cons_self _ _)
    have hr := ih (fun x hx => h x (List.mem_cons_of_mem _ hx))
    simp only [List.sum_cons, List.length_cons]
    push_cast
    linarith

/-- The sum of a listing of byte counts is at most `2 ^ 200`. -/
theorem total_le (m : GoMap) (h : m.isByteCount) : m.total ≤ 2 ^ 200 := by
  have h1 := sum_le_length_mul (m.entries.map Prod.snd) (by
    intro b hb
    obtain ⟨e, he, rfl⟩ := List.mem_map.mp hb
    exact (m.inRange e he).2)
  rw [List.length_map] at h1
  have h2 : (m.entries.length : Int) ≤ 2 ^ 48 := by exact_mod_cast h.2.2
  unfold GoMap.total
  calc (m.entries.map Prod.snd).sum ≤ (m.entries.length : Int) * 2 ^ 63 := h1
    _ ≤ 2 ^ 48 * 2 ^ 63 := by nlinarith
    _ ≤ 2 ^ 200 := by norm_num

/-- The summing loop over a listing of byte counts yields a finite value
within two roundings per language of `S`. -/
theorem sumLanguages_approx (m : GoMap) (h : m.isByteCount) :
    ∃ s, sumLanguages m = Float64.finite s ∧ approx (2 * m.entries.length) s (m.total : ℚ) := by
  have hv : ∀ b ∈ m.firstVisit.map m.get, 0 ≤ b ∧ b < 2 ^ 63 := by
    intro b hb
    obtain ⟨e, he, rfl⟩ := firstVisit_values m b hb
    exact ⟨h.1 e he, (m.inRange e he).2⟩
  have hlen : m.entries.length ≤ 2 ^ 48 := h.2.2
  obtain ⟨s, hs, ha⟩ := foldAdd_approx (m.firstVisit.map m.get) hv 0 0 0 (le_refl 0)
    (by simpa using approx_zero 0)
    (by rw [firstVisit_length]; omega)
    (by rw [firstVisit_sum, zero_add]; exact total_le m h)
  refine ⟨s, ?_, ?_⟩
  · rw [← hs, sumLanguages, List.foldl_map]
  · rw [firstVisit_length, firstVisit_sum, zero_add, zero_add] at ha
    exact ha

/-- One percentage of a listing of byte counts: a finite value within the
tolerance of `100 * bytes / S`. -/
theorem percent_within (m : GoMap) (h : m.isByteCount) (s : ℚ)
    (hs : approx (2 * m.entries.length) s (m.total : ℚ)) (e : String × Int)
    (he : e ∈ m.entries) :
    ∃ p, Float64.mul (Float64.div (Float64.ofInt e.2) (Float64.finite s)) (Float64.finite 100) =
        Float64.finite p ∧
      |p - 100 * (e.2 : ℚ) / (m.total : ℚ)| ≤
        tolerance m.entries.length * (100 * (e.2 : ℚ) / (m.total : ℚ)) := by
  have hlen : m.entries.length ≤ 2 ^ 48 := h.2.2
  have he0 : 0 ≤ e.2 := h.1 e he
  have heS : e.2 ≤ m.total :=
    List.single_le_sum (fun x hx => by
      obtain ⟨y, hy, rfl⟩ := List.mem_map.mp hx
      exact h.1 y hy) e.2 (List.mem_map_of_mem Prod.snd he)
  have hS1 : 1 ≤ m.total := h.2.1
  obtain ⟨p, hp, hpa⟩ := percent_approx e.2 m.total s (2 * m.entries.length) he0
    (m.inRange e he).2 heS hS1 (total_le m h) hs (by omega)
  refine ⟨p, hp, ?_⟩
  have hx0 : (0 : ℚ) ≤ 100 * (e.2 : ℚ) / (m.total : ℚ) := by
    have a1 : (0 : ℚ) ≤ e.2 := by exact_mod_cast he0
    have a2 : (0 : ℚ) < m.total := by exact_mod_cast hS1
    exact div_nonneg (mul_nonneg (by norm_num) a1) a2.le
  have hb := approx_abs hpa hx0 (by omega)
  have et : 2 * ((2 * m.entries.length + 3 : ℕ) : ℚ) * unitRoundoff =
      tolerance m.entries.length := by
    unfold tolerance unitRoundoff
    push_cast
    ring
  rw [et] at hb
  exact hb

/-- Percentages that are each within a relative tolerance of an exact share
sum to within that tolerance of the sum of the shares. -/
theorem sum_within (ε : ℚ) (f : String × Int → ℚ) (es : List (String × Int))
    (pl : List ProgrammingLanguage)
    (h : List.Forall₂
      (fun e l => l.Name = e.1 ∧ ∃ p, l.PercentOfUsage = Float64.finite p ∧
        |p - f e| ≤ ε * f e) es pl) :
    |(pl.map (fun l => l.PercentOfUsage.toRat)).sum - (es.map f).sum| ≤ ε * (es.map f).sum := by
  induction h with
  | nil => simp
  | @cons e l _ _ hhead _ ih =>
    obtain ⟨_, p, hp, hb⟩ := hhead
    have ht : l.PercentOfUsage.toRat = p := by rw [hp]; rfl
    simp only [List.map_cons, List.sum_cons, ht]
    rw [abs_le] at hb ih ⊢
    constructor <;> linarith [hb.1, hb.2, ih.1, ih.2]

/-- The exact shares `100 * bytes / s` sum to 100 times the sum of the counts
over `s`. -/
theorem percent_sum (es : List (String × Int)) (s : ℚ) :
    (es.map (fun e => 100 * (e.2 : ℚ) / s)).sum =
      100 * (((es.map Prod.snd).sum : Int) : ℚ) / s := by
  induction es with
  | nil => simp
  | cons e es ih =>
    simp only [List.map_cons, List.sum_cons, ih]
    push_cast
    ring

/-- The two loops, started from the empty slice, build entries as
`hasPercentOfUsage` says when the listing is one of byte counts. -/
theorem appendLanguages_hasPercentOfUsage (langs : GoMap) (h : langs.isByteCount) :
    hasPercentOfUsage langs (appendLanguages langs (sumLanguages langs) []) := by
  obtain ⟨s, hs, ha⟩ := sumLanguages_approx langs h
  have hall : List.Forall₂
      (fun e l => l.Name = e.1 ∧ ∃ p, l.PercentOfUsage = Float64.finite p ∧
        |p - 100 * (e.2 : ℚ) / (langs.total : ℚ)| ≤
          tolerance langs.entries.length * (100 * (e.2 : ℚ) / (langs.total : ℚ)))
      langs.entries (appendLanguages langs (sumLanguages langs) []) := by
    rw [appendLanguages_eq, List.nil_append, List.forall₂_map_right_iff, List.forall₂_same, hs]
    intro e he
    exact ⟨rfl, percent_within langs h s ha e he⟩
  refine ⟨hall, ?_⟩
  have hsum := sum_within (tolerance langs.entries.length)
    (fun e => 100 * (e.2 : ℚ) / (langs.total : ℚ)) _ _ hall
  have hne : (langs.total : ℚ) ≠ 0 := by
    have : 0 < langs.total := h.2.1
    exact_mod_cast this.ne'
  have h100 : (langs.entries.map (fun e => 100 * (e.2 : ℚ) / (langs.total : ℚ))).sum = 100 := by
    rw [percent_sum]
    exact mul_div_cancel_right₀ 100 hne
  rw [h100] at hsum
  exact hsum

/-- The struct literal returns, with an empty language slice, when no mapped
field is nil. -/
theorem mapRepository_returns (r : Ref GhRepository) (h : ¬ r.val.lacksMappedField) :
    ∃ repo, mapRepository (some r) = ⟨[], Outcome.ret repo⟩ ∧ repo.programmingLanguage = [] := by
  obtain ⟨a, ⟨nm, fn, d, u, p, st, fk, up⟩⟩ := r
  simp only [GhRepository.lacksMappedField, not_or] at h
  obtain ⟨h1, h2, h3, h4, h5, h6, h7⟩ := h
  obtain ⟨fn, rfl⟩ := Option.ne_none_iff_exists'.mp h1
  obtain ⟨d, rfl⟩ := Option.ne_none_iff_exists'.mp h2
  obtain ⟨u, rfl⟩ := Option.ne_none_iff_exists'.mp h3
  obtain ⟨p, rfl⟩ := Option.ne_none_iff_exists'.mp h4
  obtain ⟨st, rfl⟩ := Option.ne_none_iff_exists'.mp h5
  obtain ⟨fk, rfl⟩ := Option.ne_none_iff_exists'.mp h6
  obtain ⟨up, rfl⟩ := Option.ne_none_iff_exists'.mp h7
  exact ⟨_, mapRepository_maps _ nm fn d u p st fk up rfl, rfl⟩

/-- The loop of `GetUserRepositories` appends, in order, one repository per
listed repository, each with language entries as `hasPercentOfUsage` says. -/
theorem GetUserRepositories_loop_spec (c : Client) (userName : String)
    (items : List (Ptr GhRepository)) (repositories : List Repository)
    (h : ∀ item ∈ items, ∃ r n, item = some r ∧ r.val.Name = some n ∧
      ¬ r.val.lacksMappedField) :
    ∃ repos, (GetUserRepositories.loop c userName items repositories).out =
        Outcome.ret (repositories ++ repos) ∧
      List.Forall₂ (listedWithPercentOfUsage c userName) items repos := by
  induction items generalizing repositories with
  | nil => exact ⟨[], by simp [GetUserRepositories.loop, Exec.pure], List.Forall₂.nil⟩
  | cons item rest ih =>
    obtain ⟨r, n, hi, hn, hfull⟩ := h item (List.mem_cons_self _ _)
    obtain ⟨repo0, hmap, hpl⟩ := mapRepository_returns r hfull
    subst hi
    obtain ⟨repos, hout, hall⟩ := ih
      (repositories ++ [⟨repo0.Name, repo0.Description, repo0.Link, repo0.IsPrivate,
        repo0.StarsCount, repo0.ForksCount, repo0.LastUpdatedTime,
        appendLanguages (c.RepositoriesListLanguages userName n.val).1
          (sumLanguages (c.RepositoriesListLanguages userName n.val).1)
          repo0.programmingLanguage⟩])
      (fun x hx => h x (List.mem_cons_of_mem _ hx))
    refine ⟨(⟨repo0.Name, repo0.Description, repo0.Link, repo0.IsPrivate,
        repo0.StarsCount, repo0.ForksCount, repo0.LastUpdatedTime,
        appendLanguages (c.RepositoriesListLanguages userName n.val).1
          (sumLanguages (c.RepositoriesListLanguages userName n.val).1)
          repo0.programmingLanguage⟩ : Repository) :: repos, ?_,
      List.Forall₂.cons ⟨r, n, rfl, hn, ?_⟩ hall⟩
    · simp only [List.append_assoc, List.singleton_append] at hout
      simp only [GetUserRepositories.loop, bind_eq, pure_eq, deref_some, Exec.pure_bind, hn, hmap]
      simp [remote, Exec.bind, hout]
    · intro hbc
      simp only [hpl]
      exact appendLanguages_hasPercentOfUsage _ hbc

/-- With every mapped field present, `GetRepositoryByName` returns, after its
two remote calls, the repository whose language entries the two loops build. -/
theorem GetRepositoryByName_returns (c : Client) (userName repositoryName : String)
    (r : Ref GhRepository) (err lerr : Error) (langs : GoMap)
    (hget : c.RepositoriesGet userName repositoryName = (some r, err))
    (hfull : ¬ r.val.lacksMappedField)
    (hlangs : c.RepositoriesListLanguages userName repositoryName = (langs, lerr)) :
    ∃ repo0, mapRepository (some r) = ⟨[], Outcome.ret repo0⟩ ∧
      GetRepositoryByName c userName repositoryName =
        ⟨[Call.RepositoriesGet userName repositoryName,
          Call.RepositoriesListLanguages userName repositoryName],
          Outcome.ret (some ⟨repo0.Name, repo0.Description, repo0.Link, repo0.IsPrivate,
            repo0.StarsCount, repo0.ForksCount, repo0.LastUpdatedTime,
            appendLanguages langs (sumLanguages langs) []⟩, err)⟩ := by
  obtain ⟨repo0, hmap, hpl⟩ := mapRepository_returns r hfull
  refine ⟨repo0, hmap, ?_⟩
  simp [GetRepositoryByName, hget, hlangs, hmap, hpl, remote, Exec.bind, Exec.pure]

/-- C3: for every language listing of byte counts (no count negative, counts
summing to `S > 0`, at most `2 ^ 48` languages) that the remote answers for a
repository with every mapped field present, the repository that
`GetRepositoryByName` returns has exactly one language entry per language of
the listing, each with a finite float64 percentage within the relative
tolerance `(2 N + 3) / 2 ^ 52` of `100 * bytes[lang] / S`, and the percentages
sum to 100 within that tolerance; and for every listing of repositories with
name and mapped fields present, `GetUserRepositories` returns one repository
per listed repository, in order, of each of which the same holds when its
language listing is one of byte counts. -/
theorem percent_of_usage (c : Client) (userName : String) :
    (∀ (repositoryName : String) (r : Ref GhRepository) (err lerr : Error) (langs : GoMap),
      c.RepositoriesGet userName repositoryName = (some r, err) →
      ¬ r.val.lacksMappedField →
      c.RepositoriesListLanguages userName repositoryName = (langs, lerr) →
      langs.isByteCount →
      ∃ repo,
        (GetRepositoryByName c userName repositoryName).out = Outcome.ret (some repo, err) ∧
        repo.programmingLanguage.length = langs.entries.length ∧
        repo.programmingLanguage.map ProgrammingLanguage.Name = langs.keys ∧
        hasPercentOfUsage langs repo.programmingLanguage) ∧
    (∀ (items : List (Ptr GhRepository)) (listErr : Error),
      c.RepositoriesList userName = (items, listErr) →
      (∀ item ∈ items, ∃ r n, item = some r ∧ r.val.Name = some n ∧
        ¬ r.val.lacksMappedField) →
      ∃ repos, (GetUserRepositories c userName).out = Outcome.ret (repos, listErr) ∧
        List.Forall₂ (listedWithPercentOfUsage c userName) items repos) := by
  constructor
  · intro repositoryName r err lerr langs hget hfull hlangs hbc
    obtain ⟨repo0, _, hrun⟩ :=
      GetRepositoryByName_returns c userName repositoryName r err lerr langs hget hfull hlangs
    refine ⟨_, by rw [hrun], ?_, ?_, appendLanguages_hasPercentOfUsage langs hbc⟩
    · simp [appendLanguages_eq]
    · simp [appendLanguages_eq, GoMap.keys]
  · intro items listErr hlist hitems
    obtain ⟨repos, hout, hall⟩ := GetUserRepositories_loop_spec c userName items [] hitems
    refine ⟨repos, ?_, hall⟩
    simp only [List.nil_append] at hout
    simp [GetUserRepositories, hlist, hout, remote, Exec.bind, Exec.pure]

/-- The fixture listing is one of byte counts. -/
theorem fixtureLanguages_isByteCount : fixtureLanguages.isByteCount := by
  unfold GoMap.isByteCount GoMap.total
  decide

/-- C3 at the fixture repository, whose listing holds 300 bytes of Go and 100
bytes of Python, visited in the other order by the summing loop. -/
theorem percent_of_usage_witness :
    (∃ repo, (GetRepositoryByName repositoryClient "kill-your-soul" "XakepParser").out =
        Outcome.ret (some repo, none) ∧
        repo.programmingLanguage.length = 2 ∧
        repo.programmingLanguage.map ProgrammingLanguage.Name = ["Go", "Python"] ∧
        hasPercentOfUsage fixtureLanguages repo.programmingLanguage) ∧
      (∃ repos, (GetUserRepositories repositoryClient "kill-your-soul").out =
        Outcome.ret (repos, none) ∧
        List.Forall₂ (listedWithPercentOfUsage repositoryClient "kill-your-soul")
          [some ⟨20, fixtureRepository⟩] repos) :=
  ⟨(percent_of_usage repositoryClient "kill-your-soul").1 "XakepParser"
      ⟨20, fixtureRepository⟩ none none fixtureLanguages rfl
      (by simp [GhRepository.lacksMappedField, fixtureRepository]) rfl
      fixtureLanguages_isByteCount,
    (percent_of_usage repositoryClient "kill-your-soul").2 [some ⟨20, fixtureRepository⟩] none rfl
      (by
        intro item hitem
        rw [List.mem_singleton] at hitem
        exact ⟨_, ⟨21, "XakepParser"⟩, hitem, rfl,
          by simp [GhRepository.lacksMappedField, fixtureRepository]⟩)⟩

/-! ## The percentages at two concrete listings -/

/-- The number 1 is a float64. -/
theorem round_1 : Float64.round (1) = Float64.finite (1) := by
  have h := Float64.round_eq (1) (0) (4503599627370496) (by norm_num) (by norm_num [le_abs])
    (by norm_num [abs_lt]) (by norm_num [abs_lt]) (by norm_num) (by norm_num [abs_lt])
  rw [h]
  norm_num

/-- The number 2 is a float64. -/
theorem round_2 : Float64.round (2) = Float64.finite (2) := by
  have h := Float64.round_eq (2) (1) (4503599627370496) (by norm_num) (by norm_num [le_abs])
    (by norm_num [abs_lt]) (by norm_num [abs_lt]) (by norm_num) (by norm_num [abs_lt])
  rw [h]
  norm_num

/-- The number 3 is a float64. -/
theorem round_3 : Float64.round (3) = Float64.finite (3) := by
  have h := Float64.round_eq (3) (1) (6755399441055744) (by norm_num) (by norm_num [le_abs])
    (by norm_num [abs_lt]) (by norm_num [abs_lt]) (by norm_num) (by norm_num [abs_lt])
  rw [h]
  norm_num

/-- The float64 nearest to one third. -/
theorem round_third : Float64.round (1 / 3) = Float64.finite (6004799503160661 / 18014398509481984) := by
  have h := Float64.round_eq (1 / 3) (-2) (6004799503160661) (by norm_num) (by norm_num [le_abs])
    (by norm_num [abs_lt]) (by norm_num [abs_lt]) (by norm_num) (by norm_num [abs_lt])
  rw [h]
  norm_num

/-- The float64 nearest to two thirds. -/
theorem round_two_thirds : Float64.round (2 / 3) = Float64.finite (6004799503160661 / 9007199254740992) := by
  have h := Float64.round_eq (2 / 3) (-1) (6004799503160661) (by norm_num) (by norm_num [le_abs])
    (by norm_num [abs_lt]) (by norm_num [abs_lt]) (by norm_num) (by norm_num [abs_lt])
  rw [h]
  norm_num

/-- The float64 nearest to 100 times the float64 third: 33.33333333333333. -/
theorem round_third_percent : Float64.round (6004799503160661 / 18014398509481984 * 100) = Float64.finite (2345624805922133 / 70368744177664) := by
  have h := Float64.round_eq (6004799503160661 / 18014398509481984 * 100) (5) (4691249611844266) (by norm_num) (by norm_num [le_abs])
    (by norm_num [abs_lt]) (by norm_num [abs_lt]) (by norm_num) (by norm_num [abs_lt])
  rw [h]
  norm_num

/-- The float64 nearest to 100 times the float64 two thirds: 66.66666666666666. -/
theorem round_two_thirds_percent : Float64.round (6004799503160661 / 9007199254740992 * 100) = Float64.finite (2345624805922133 / 35184372088832) := by
  have h := Float64.round_eq (6004799503160661 / 9007199254740992 * 100) (6) (4691249611844266) (by norm_num) (by norm_num [le_abs])
    (by norm_num [abs_lt]) (by norm_num [abs_lt]) (by norm_num) (by norm_num [abs_lt])
  rw [h]
  norm_num

/-- The float64 nearest to `2 ^ 54 + 1` is `2 ^ 54`. -/
theorem round_big_odd : Float64.round (18014398509481985) = Float64.finite (18014398509481984) := by
  have h := Float64.round_eq (18014398509481985) (54) (4503599627370496) (by norm_num) (by norm_num [le_abs])
    (by norm_num [abs_lt]) (by norm_num [abs_lt]) (by norm_num) (by norm_num [abs_lt])
  rw [h]
  norm_num

/-- The number `2 ^ 54` is a float64. -/
theorem round_big : Float64.round (18014398509481984) = Float64.finite (18014398509481984) := by
  have h := Float64.round_eq (18014398509481984) (54) (4503599627370496) (by norm_num) (by norm_num [le_abs])
    (by norm_num [abs_lt]) (by norm_num [abs_lt]) (by norm_num) (by norm_num [abs_lt])
  rw [h]
  norm_num

/-- The number `-2 ^ 54` is a float64. -/
theorem round_big_neg : Float64.round (-18014398509481984) = Float64.finite (-18014398509481984) := by
  have h := Float64.round_eq (-18014398509481984) (54) (-4503599627370496) (by norm_num) (by norm_num [le_abs])
    (by norm_num [abs_lt]) (by norm_num [abs_lt]) (by norm_num) (by norm_num [abs_lt])
  rw [h]
  norm_num

/-- The summing loop as a fold over the values it reads. -/
theorem sumLanguages_eq_foldl (m : GoMap) :
    sumLanguages m =
      (m.firstVisit.map m.get).foldl (fun acc b => Float64.add acc (Float64.ofInt b))
        (Float64.finite 0) := by
  rw [sumLanguages, List.foldl_map]

/-- A fold over two elements. -/
theorem foldl_pair {α β : Type} (f : β → α → β) (i : β) (a b : α) :
    [a, b].foldl f i = f (f i a) b := by
  rw [List.foldl_cons, List.foldl_cons, List.foldl_nil]

/-- A map over two elements. -/
theorem map_pair {α β : Type} (g : α → β) (a b : α) : [a, b].map g = [g a, g b] := by
  rw [List.map_cons, List.map_cons, List.map_nil]

/-- The values of the listing of thirds, as float64. -/
theorem thirds_values :
    Float64.ofInt 1 = Float64.finite 1 ∧ Float64.ofInt 2 = Float64.finite 2 := by
  constructor
  · rw [Float64.ofInt, Int.cast_one, round_1]
  · rw [Float64.ofInt, Int.cast_ofNat, round_2]

/-- The float64 sum of the listing of thirds is 3. -/
theorem thirds_sum : sumLanguages thirdsLanguages = Float64.finite 3 := by
  have hv : thirdsLanguages.firstVisit = ["A", "B"] := rfl
  have gA : thirdsLanguages.get "A" = 1 :=
    thirdsLanguages.get_of_mem ("A", 1) (by simp [thirdsLanguages])
  have gB : thirdsLanguages.get "B" = 2 :=
    thirdsLanguages.get_of_mem ("B", 2) (by simp [thirdsLanguages])
  have hvals : thirdsLanguages.firstVisit.map thirdsLanguages.get = [1, 2] := by
    rw [hv, map_pair, gA, gB]
  rw [sumLanguages_eq_foldl, hvals]
  simp only [foldl_pair, thirds_values.1, thirds_values.2]
  have a1 : Float64.add (Float64.finite 0) (Float64.finite 1) = Float64.finite 1 := by
    rw [Float64.add, if_neg (by norm_num), zero_add, round_1]
  have a2 : Float64.add (Float64.finite 1) (Float64.finite 2) = Float64.finite 3 := by
    rw [Float64.add, if_neg (by norm_num), show (1 : ℚ) + 2 = 3 by norm_num, round_3]
  rw [a1, a2]

/-- The entries that the loops build for the listing of thirds. -/
theorem thirds_percentages :
    appendLanguages thirdsLanguages (sumLanguages thirdsLanguages) [] =
      [⟨"A", Float64.finite (2345624805922133 / 70368744177664)⟩,
        ⟨"B", Float64.finite (2345624805922133 / 35184372088832)⟩] := by
  have he : thirdsLanguages.entries = [("A", 1), ("B", 2)] := rfl
  rw [thirds_sum, appendLanguages_eq, he]
  simp only [List.nil_append, map_pair, thirds_values.1, thirds_values.2]
  have d1 : Float64.div (Float64.finite 1) (Float64.finite 3) =
      Float64.finite (6004799503160661 / 18014398509481984) := by
    rw [Float64.div, if_neg (by norm_num), if_neg (by norm_num), round_third]
  have d2 : Float64.div (Float64.finite 2) (Float64.finite 3) =
      Float64.finite (6004799503160661 / 9007199254740992) := by
    rw [Float64.div, if_neg (by norm_num), if_neg (by norm_num), round_two_thirds]
  have m1 : Float64.mul (Float64.finite (6004799503160661 / 18014398509481984))
      (Float64.finite 100) = Float64.finite (2345624805922133 / 70368744177664) := by
    rw [Float64.mul, if_neg (by norm_num), round_third_percent]
  have m2 : Float64.mul (Float64.finite (6004799503160661 / 9007199254740992))
      (Float64.finite 100) = Float64.finite (2345624805922133 / 35184372088832) := by
    rw [Float64.mul, if_neg (by norm_num), round_two_thirds_percent]
  rw [d1, d2, m1, m2]

/-- The values of the cancelling listing, as float64. -/
theorem cancelling_values :
    Float64.ofInt 18014398509481985 = Float64.finite 18014398509481984 ∧
      Float64.ofInt (-18014398509481984) = Float64.finite (-18014398509481984) := by
  constructor
  · rw [Float64.ofInt, Int.cast_ofNat, round_big_odd]
  · rw [Float64.ofInt, Int.cast_neg, Int.cast_ofNat, round_big_neg]

/-- The float64 sum of the cancelling listing is 0. -/
theorem cancelling_sum : sumLanguages cancellingLanguages = Float64.finite 0 := by
  have hv : cancellingLanguages.firstVisit = ["A", "B"] := rfl
  have gA : cancellingLanguages.get "A" = 18014398509481985 :=
    cancellingLanguages.get_of_mem ("A", 18014398509481985) (by simp [cancellingLanguages])
  have gB : cancellingLanguages.get "B" = -18014398509481984 :=
    cancellingLanguages.get_of_mem ("B", -18014398509481984) (by simp [cancellingLanguages])
  have hvals : cancellingLanguages.firstVisit.map cancellingLanguages.get =
      [18014398509481985, -18014398509481984] := by
    rw [hv, map_pair, gA, gB]
  rw [sumLanguages_eq_foldl, hvals]
  simp only [foldl_pair, cancelling_values.1, cancelling_values.2]
  have a1 : Float64.add (Float64.finite 0) (Float64.finite 18014398509481984) =
      Float64.finite 18014398509481984 := by
    rw [Float64.add, if_neg (by norm_num), zero_add, round_big]
  rw [a1, Float64.add, if_pos (by norm_num)]

/-- The entries that the loops build for the cancelling listing. -/
theorem cancelling_percentages :
    appendLanguages cancellingLanguages (sumLanguages cancellingLanguages) [] =
      [⟨"A", Float64.inf false⟩, ⟨"B", Float64.inf true⟩] := by
  have he : cancellingLanguages.entries =
      [("A", 18014398509481985), ("B", -18014398509481984)] := rfl
  rw [cancelling_sum, appendLanguages_eq, he]
  simp only [List.nil_append, map_pair, cancelling_values.1, cancelling_values.2]
  have d1 : Float64.div (Float64.finite 18014398509481984) (Float64.finite 0) =
      Float64.inf false := by
    rw [Float64.div, if_pos rfl, if_neg (by norm_num)]
    norm_num
  have d2 : Float64.div (Float64.finite (-18014398509481984)) (Float64.finite 0) =
      Float64.inf true := by
    rw [Float64.div, if_pos rfl, if_neg (by norm_num)]
    norm_num
  have m1 : Float64.mul (Float64.inf false) (Float64.finite 100) = Float64.inf false := by
    rw [Float64.mul, if_neg (by norm_num)]
    norm_num
  have m2 : Float64.mul (Float64.inf true) (Float64.finite 100) = Float64.inf true := by
    rw [Float64.mul, if_neg (by norm_num)]
    norm_num
  rw [d1, d2, m1, m2]

/-- The counts of the listing of thirds sum to 3. -/
theorem thirds_total : thirdsLanguages.total = 3 := by
  have he : thirdsLanguages.entries = [("A", 1), ("B", 2)] := rfl
  rw [GoMap.total, he]
  norm_num

/-- The counts of the cancelling listing sum to 1. -/
theorem cancelling_total : cancellingLanguages.total = 1 := by
  have he : cancellingLanguages.entries =
      [("A", 18014398509481985), ("B", -18014398509481984)] := rfl
  rw [GoMap.total, he]
  norm_num

/-- C3, as stated, fails on the code.  For the listing with 1 byte of A and 2
bytes of B, whose counts sum to `S = 3 > 0`, `GetRepositoryByName` returns the float64 percentages
33.33333333333333 and 66.66666666666666, which are not `100 * 1 / 3` and
`100 * 2 / 3` and do not sum to 100.  For the listing with `2 ^ 54 + 1` bytes
of A and `-2 ^ 54` bytes of B, whose counts sum to `S = 1 > 0`, it returns the
percentages `+Inf` and `-Inf`. -/
theorem percent_of_usage_inexact :
    (0 < thirdsLanguages.total ∧
      (GetRepositoryByName thirdsClient "kill-your-soul" "XakepParser").out =
        Outcome.ret (some ⟨"kill-your-soul/XakepParser", "parser",
          "https://github.com/kill-your-soul/XakepParser", false, 2, 1, ⟨1650000000⟩,
          [⟨"A", Float64.finite (2345624805922133 / 70368744177664)⟩,
            ⟨"B", Float64.finite (2345624805922133 / 35184372088832)⟩]⟩, none) ∧
      (2345624805922133 / 70368744177664 : ℚ) ≠ 100 * 1 / 3 ∧
      (2345624805922133 / 35184372088832 : ℚ) ≠ 100 * 2 / 3 ∧
      (2345624805922133 / 70368744177664 + 2345624805922133 / 35184372088832 : ℚ) ≠ 100) ∧
    (0 < cancellingLanguages.total ∧
      (GetRepositoryByName cancellingClient "kill-your-soul" "XakepParser").out =
        Outcome.ret (some ⟨"kill-your-soul/XakepParser", "parser",
          "https://github.com/kill-your-soul/XakepParser", false, 2, 1, ⟨1650000000⟩,
          [⟨"A", Float64.inf false⟩, ⟨"B", Float64.inf true⟩]⟩, none)) := by
  have hfull : ¬ (⟨20, fixtureRepository⟩ : Ref GhRepository).val.lacksMappedField := by
    simp [GhRepository.lacksMappedField, fixtureRepository]
  have hmap : mapRepository (some ⟨20, fixtureRepository⟩) =
      ⟨[], Outcome.ret ⟨"kill-your-soul/XakepParser", "parser",
        "https://github.com/kill-your-soul/XakepParser", false, 2, 1, ⟨1650000000⟩, []⟩⟩ :=
    mapRepository_maps ⟨20, fixtureRepository⟩ _ ⟨22, "kill-your-soul/XakepParser"⟩
      ⟨23, "parser"⟩ ⟨24, "https://github.com/kill-your-soul/XakepParser"⟩ ⟨25, false⟩
      ⟨26, 2⟩ ⟨27, 1⟩ ⟨28, ⟨⟨1650000000⟩⟩⟩ rfl
  refine ⟨⟨by rw [thirds_total]; norm_num, ?_, by norm_num, by norm_num, by norm_num⟩,
    by rw [cancelling_total]; norm_num, ?_⟩
  · obtain ⟨repo0, h0, hrun⟩ := GetRepositoryByName_returns thirdsClient "kill-your-soul"
      "XakepParser" ⟨20, fixtureRepository⟩ none none thirdsLanguages rfl hfull rfl
    rw [hmap] at h0
    cases h0
    rw [hrun, thirds_percentages]
  · obtain ⟨repo0, h0, hrun⟩ := GetRepositoryByName_returns cancellingClient "kill-your-soul"
      "XakepParser" ⟨20, fixtureRepository⟩ none none cancellingLanguages rfl hfull rfl
    rw [hmap] at h0
    cases h0
    rw [hrun, cancelling_percentages]

end Praktika
